import Mathlib

/-
Verification of the RAG_QCTCVN ingestion/retrieval/generation core.

Shallow embedding conventions:
* Python strings are modelled as `List Char` (`Str`); `len` is `List.length`
  (both count Unicode code points).
* Python dicts that are built by insertion are modelled as association lists
  in insertion order.
* Python floats are modelled as rationals (`ℚ`); none of the verified claims
  depends on floating-point rounding.
* External collaborators (the document parser, the embedding model, the
  vector database connection, the LLM generators, the metadata extractor's
  pattern tables) are parameters of the embedded functions; everything that
  the claims quantify over is proved for all values of those parameters.
-/

namespace RagQC

abbrev Str := List Char

/-- Whitespace predicate used by Python `str.strip` / `str.split` (ASCII part;
the documents at hand contain no exotic Unicode spaces). -/
def isPyWs (c : Char) : Bool :=
  c == ' ' || c == '\t' || c == '\n' || c == '\r' || c == '\x0b' || c == '\x0c'

/-- Python `s.lstrip()`. -/
def stripLeft (s : Str) : Str := s.dropWhile isPyWs

/-- Python `s.rstrip()`. -/
def stripRight (s : Str) : Str := (s.reverse.dropWhile isPyWs).reverse

/-- Python `s.strip()`. -/
def pyStrip (s : Str) : Str := stripRight (stripLeft s)

/-- Number of non-whitespace characters of a string. -/
def countNonWs (s : Str) : Nat := (s.filter (fun c => !isPyWs c)).length

/-- Python `s.split(sep)` for a one-character separator. -/
def splitOnChar (sep : Char) : Str → List Str
  | [] => [[]]
  | c :: rest =>
    if c = sep then [] :: splitOnChar sep rest
    else
      match splitOnChar sep rest with
      | [] => [[c]]
      | p :: ps => (c :: p) :: ps

/-- Python `sep.join(parts)`. -/
def joinSep (sep : Str) : List Str → Str
  | [] => []
  | [p] => p
  | p :: ps => p ++ sep ++ joinSep sep ps

/-- Python `s.split(sep)` for a non-empty multi-character separator
(leftmost, non-overlapping occurrences). -/
def splitSeq (sep : Str) : Str → List Str
  | [] => [[]]
  | c :: rest =>
    if h : sep ≠ [] ∧ sep.isPrefixOf (c :: rest) then
      [] :: splitSeq sep ((c :: rest).drop sep.length)
    else
      match splitSeq sep rest with
      | [] => [[c]]
      | p :: ps => (c :: p) :: ps
termination_by l => l.length
decreasing_by
  · simp only [List.length_drop, List.length_cons]
    have hsep : 1 ≤ sep.length := by
      cases hs : sep with
      | nil => exact absurd hs h.1
      | cons a as => simp
    omega
  · simp

/-- Sentence-final punctuation of the splitter regex `(?<=[.!?])\s+`. -/
def sentencePunct (c : Char) : Bool := c == '.' || c == '!' || c == '?'

/-- True when the list starts with a whitespace character. -/
def headIsWs : Str → Bool
  | [] => false
  | c :: _ => isPyWs c

lemma length_dropWhile_le (p : Char → Bool) (l : Str) :
    (l.dropWhile p).length ≤ l.length := by
  induction l with
  | nil => simp [List.dropWhile]
  | cons c rest ih =>
    by_cases h : p c
    · simp only [List.dropWhile, h]
      exact Nat.le_succ_of_le ih
    · simp [List.dropWhile, h]

/-- Worker for `splitSentences`: accumulates the current sentence in reverse. -/
def splitSentencesGo : Str → Str → List Str
  | [], acc => [acc.reverse]
  | c :: rest, acc =>
    if sentencePunct c && headIsWs rest then
      (c :: acc).reverse :: splitSentencesGo (rest.dropWhile isPyWs) []
    else
      splitSentencesGo rest (c :: acc)
termination_by l _ => l.length
decreasing_by
  · have := length_dropWhile_le isPyWs rest
    simp only [List.length_cons]
    omega
  · simp

/-- Python `re.split(r'(?<=[.!?])\s+', text)`: cut after `.`/`!`/`?` followed
by a whitespace run; the whitespace run is consumed, punctuation stays with
the left piece. -/
def splitSentences (s : Str) : List Str := splitSentencesGo s []

/-- Python `s.split()` (split on whitespace runs, dropping empty pieces). -/
def pyWords (s : Str) : List Str :=
  match h : s.dropWhile isPyWs with
  | [] => []
  | c :: rest =>
    (c :: rest.takeWhile (fun x => !isPyWs x)) ::
      pyWords (rest.dropWhile (fun x => !isPyWs x))
termination_by s.length
decreasing_by
  have h1 : (s.dropWhile isPyWs).length ≤ s.length := length_dropWhile_le _ _
  have h2 : (rest.dropWhile (fun x => !isPyWs x)).length ≤ rest.length :=
    length_dropWhile_le _ _
  rw [h] at h1
  simp only [List.length_cons] at h1
  omega

/-!
Embedding of the structure-marker regexes of `ccba_rag/core/constants.py`:

* `CHAPTER_PATTERN = (?:CHƯƠNG|Chương)\s+([IVXLCDM]+|[0-9]+)[\s:.\-]*(.+)?`
  with `re.IGNORECASE`, used with `.match` (prefix-anchored).
* `ARTICLE_PATTERN = (?:ĐIỀU|Điều)\s+([0-9]+)[\s:.\-]*(.+)?`, same flags.

Because the trailing `[\s:.\-]*` and `(.+)?` always succeed (possibly empty),
the regexes never backtrack: a line matches iff it starts with the keyword
(caseless), then at least one whitespace character, then at least one
roman-numeral (chapter only) or digit character.  `(.+)?` stops at a newline
(`.` does not match `\n`); an empty remainder gives group 2 = `None`.
-/

/-- Restriction of Unicode lowercasing (re.IGNORECASE) to the alphabet that
appears in the patterns: ASCII plus the Vietnamese letters of CHƯƠNG/ĐIỀU. -/
def lowerVi (c : Char) : Char :=
  if c = 'Đ' then 'đ'
  else if c = 'Ư' then 'ư'
  else if c = 'Ơ' then 'ơ'
  else if c = 'Ề' then 'ề'
  else c.toLower

/-- Caseless equality of two strings. -/
def lowerEq (a b : Str) : Bool := a.map lowerVi == b.map lowerVi

/-- Case-insensitive `[IVXLCDM]` character class. -/
def romanCI (c : Char) : Bool := "IVXLCDM".toList.contains c.toUpper

/-- The `[\s:.\-]` character class. -/
def punctClass (c : Char) : Bool := isPyWs c || c == ':' || c == '.' || c == '-'

/-- Shared tail of both patterns after the captured number: skip
`[\s:.\-]*` greedily, then capture `(.+)?` (up to a newline, `None` when
empty). -/
def groupsAfterNum (g1 : Str) (rest : Str) : Str × Option Str :=
  let rest2 := rest.dropWhile punctClass
  let g2 := rest2.takeWhile (fun c => c ≠ '\n')
  (g1, if g2 = [] then none else some g2)

/-- `CHAPTER_PATTERN.match(line)`: `some (group1, group2?)` on success. -/
def chapterMatch (l : Str) : Option (Str × Option Str) :=
  if lowerEq (l.take 6) "chương".toList then
    let r := l.drop 6
    if r.takeWhile isPyWs = [] then none
    else
      let r2 := r.dropWhile isPyWs
      let rom := r2.takeWhile romanCI
      if rom ≠ [] then some (groupsAfterNum rom (r2.drop rom.length))
      else
        let dig := r2.takeWhile Char.isDigit
        if dig ≠ [] then some (groupsAfterNum dig (r2.drop dig.length))
        else none
  else none

/-- `ARTICLE_PATTERN.match(line)`: `some (group1, group2?)` on success. -/
def articleMatch (l : Str) : Option (Str × Option Str) :=
  if lowerEq (l.take 4) "điều".toList then
    let r := l.drop 4
    if r.takeWhile isPyWs = [] then none
    else
      let r2 := r.dropWhile isPyWs
      let dig := r2.takeWhile Char.isDigit
      if dig ≠ [] then some (groupsAfterNum dig (r2.drop dig.length))
      else none
  else none

/-! Data model (`ccba_rag/core/models.py`). -/

/-- `ChunkLevel` enum. -/
inductive ChunkLevel where
  | document
  | chapter
  | article
  | section
  | clause
deriving Repr, DecidableEq

/-- `Chunk` pydantic model.  Fields irrelevant to the claims keep their
defaults; vectors are `none` until the Embed stage attaches them. -/
structure Chunk where
  id : Str
  documentId : Str
  documentName : Str
  text : Str
  pageNumber : Nat := 1
  chapter : Option Str := none
  article : Option Str := none
  clause : Option Str := none
  documentCode : Option Str := none
  parentId : Option Str := none
  level : ChunkLevel := ChunkLevel.clause
  fullContext : Option Str := none
  bbox : Option (List ℚ) := none
  tokenCount : Nat := 0
  denseVector : Option (List ℚ) := none
  sparseVector : Option (List (Nat × ℚ)) := none
deriving Repr, DecidableEq

instance : Inhabited Chunk :=
  ⟨{ id := [], documentId := [], documentName := [], text := [] }⟩

/-!
Structural splitter (`ccba_rag/ingestion/splitters.py`).

`StructuralSplitter(max_chars, min_chars, overlap)` is modelled by passing
the three configuration numbers explicitly to each function.
-/

/-- Mutation of the last element of a list (`chunks[-1]` updates). -/
def updateLast (f : Chunk → Chunk) : List Chunk → List Chunk
  | [] => []
  | [c] => [f c]
  | c :: rest => c :: updateLast f rest

/-- `StructuralSplitter._build_context_breadcrumb`. -/
def buildContextBreadcrumb (chapter article : Option Str) : Str :=
  let parts :=
    (match chapter with
     | some c => if c ≠ [] then ["Chương ".toList ++ c] else []
     | none => []) ++
    (match article with
     | some a => if a ≠ [] then ["Điều ".toList ++ a] else []
     | none => [])
  joinSep " > ".toList parts

/-- Python `s[-overlap:]` for `overlap > 0`: the last `overlap` characters. -/
def takeLastChars (n : Nat) (s : Str) : Str := s.drop (s.length - n)

/-- Paragraph-packing loop of `_recursive_split` (the `len(paragraphs) > 1`
branch), returning the packed unit groups; the source emits
`'\n\n'.join(current)` at each flush, which is recovered by joining each
group (see `recursiveSplit`).  State: emitted groups, `current`,
`current_len`. -/
def packParasGo (maxChars overlap : Nat) :
    List Str → List (List Str) → List Str → Nat → List (List Str)
  | [], groups, current, _ =>
    if current ≠ [] then groups ++ [current] else groups
  | p :: rest, groups, current, currentLen =>
    if currentLen + p.length > maxChars ∧ current ≠ [] then
      let seed :=
        if overlap > 0 then
          let lastP := current.getLastD []
          if lastP.length ≤ overlap then [lastP]
          else [takeLastChars overlap lastP]
        else []
      packParasGo maxChars overlap rest (groups ++ [current]) (seed ++ [p])
        ((joinSep [] seed).length + p.length)
    else
      packParasGo maxChars overlap rest groups (current ++ [p])
        (currentLen + p.length)

/-- Sentence-packing loop of `_recursive_split` (the fallback branch).  Note
that the overlap seed here is the whole last sentence, `current[-1]`, with
no truncation to `overlap` characters. -/
def packSentsGo (maxChars overlap : Nat) :
    List Str → List (List Str) → List Str → Nat → List (List Str)
  | [], groups, current, _ =>
    if current ≠ [] then groups ++ [current] else groups
  | s :: rest, groups, current, currentLen =>
    if currentLen + s.length > maxChars ∧ current ≠ [] then
      let seed := if overlap > 0 then [current.getLastD []] else []
      packSentsGo maxChars overlap rest (groups ++ [current]) (seed ++ [s])
        ((joinSep [] seed).length + s.length)
    else
      packSentsGo maxChars overlap rest groups (current ++ [s])
        (currentLen + s.length)

/-- Unit groups built by `_recursive_split` before joining. -/
def recursiveSplitGroups (maxChars overlap : Nat) (text : Str) :
    Str × List (List Str) :=
  let paragraphs := splitSeq "\n\n".toList text
  if paragraphs.length > 1 then ("\n\n".toList, packParasGo maxChars overlap paragraphs [] [] 0)
  else (" ".toList, packSentsGo maxChars overlap (splitSentences text) [] [] 0)

/-- `StructuralSplitter._recursive_split`. -/
def recursiveSplit (maxChars overlap : Nat) (text : Str) : List Str :=
  if text.length ≤ maxChars then [text]
  else
    let (sep, groups) := recursiveSplitGroups maxChars overlap text
    groups.map (joinSep sep)

/-- Chunk construction of the `len(text) <= max_chars` branch of
`_create_chunks_from_block`. -/
def mkBlockChunk (documentId documentName : Str)
    (chapter article : Option Str) (pageNumber : Nat) (text : Str) : Chunk :=
  { id := []
    documentId := documentId
    documentName := documentName
    text := text
    pageNumber := pageNumber
    chapter := chapter
    article := article
    level := if article.isSome then ChunkLevel.article else ChunkLevel.chapter
    fullContext := some (buildContextBreadcrumb chapter article)
    tokenCount := (pyWords text).length }

/-- Chunk construction of the recursive-split branch of
`_create_chunks_from_block` (`i` is the 0-based sub-text index). -/
def mkSubChunk (documentId documentName : Str)
    (chapter article : Option Str) (pageNumber : Nat)
    (i total : Nat) (text : Str) : Chunk :=
  { id := []
    documentId := documentId
    documentName := documentName
    text := text
    pageNumber := pageNumber
    chapter := chapter
    article := article
    clause := if total > 1 then some (Nat.repr (i + 1)).toList else none
    level := ChunkLevel.clause
    fullContext := some (buildContextBreadcrumb chapter article)
    tokenCount := (pyWords text).length }

/-- Merging of a small text into the previous chunk
(`chunks[-1].text += "\n" + text` plus the token-count refresh). -/
def mergeIntoLast (text : Str) (chunks : List Chunk) : List Chunk :=
  updateLast (fun c =>
    { c with
      text := c.text ++ '\n' :: text
      tokenCount := (pyWords (c.text ++ '\n' :: text)).length }) chunks

/-- `StructuralSplitter._create_chunks_from_block`.  `existing` is the
`existing_chunks` parameter (`None` in the source defaults to `[]`, and
`StructuralSplitter.split` never passes it, so every call from `split`
starts from the empty list). -/
def createChunksFromBlock (maxChars minChars overlap : Nat)
    (documentId documentName : Str) (chapter article : Option Str)
    (pageNumber : Nat) (existing : List Chunk) (text : Str) : List Chunk :=
  if text.length ≤ maxChars then
    if text.length < minChars ∧ existing ≠ [] then
      mergeIntoLast text existing
    else
      existing ++ [mkBlockChunk documentId documentName chapter article pageNumber text]
  else
    let subs := recursiveSplit maxChars overlap text
    subs.enum.foldl
      (fun acc is =>
        if is.2.length < minChars ∧ acc ≠ [] then
          mergeIntoLast is.2 acc
        else
          acc ++ [mkSubChunk documentId documentName chapter article pageNumber
            is.1 subs.length is.2])
      existing

/-- Value assigned to `current_chapter` / `current_article` from a match:
`group(1)`, extended with `": " + group(2).strip()` when group 2 is
present. -/
def headerValue (g : Str × Option Str) : Str :=
  match g.2 with
  | some s => g.1 ++ ": ".toList ++ pyStrip s
  | none => g.1

/-- Line-scanning loop of `StructuralSplitter.split`.  State: accumulated
chunks, `current_chapter`, `current_article`, `current_block`.  Each flush
calls `_create_chunks_from_block` with a fresh (empty) chunk list and
extends the accumulator with the result, exactly as the source does. -/
def splitLines (maxChars minChars overlap : Nat)
    (documentId documentName : Str) :
    List Str → List Chunk → Option Str → Option Str → List Str → List Chunk
  | [], chunks, chapter, article, block =>
    if block ≠ [] then
      chunks ++ createChunksFromBlock maxChars minChars overlap documentId
        documentName chapter article 1 [] (joinSep ['\n'] block)
    else chunks
  | line :: rest, chunks, chapter, article, block =>
    let l := pyStrip line
    if l = [] then
      splitLines maxChars minChars overlap documentId documentName rest
        chunks chapter article block
    else
      match chapterMatch l with
      | some g =>
        let chunks' :=
          if block ≠ [] then
            chunks ++ createChunksFromBlock maxChars minChars overlap
              documentId documentName chapter article 1 []
              (joinSep ['\n'] block)
          else chunks
        splitLines maxChars minChars overlap documentId documentName rest
          chunks' (some (headerValue g)) article [l]
      | none =>
        match articleMatch l with
        | some g =>
          let chunks' :=
            if block ≠ [] then
              chunks ++ createChunksFromBlock maxChars minChars overlap
                documentId documentName chapter article 1 []
                (joinSep ['\n'] block)
            else chunks
          splitLines maxChars minChars overlap documentId documentName rest
            chunks' chapter (some (headerValue g)) [l]
        | none =>
          splitLines maxChars minChars overlap documentId documentName rest
            chunks chapter article (block ++ [l])

/-- `StructuralSplitter._generate_chunk_id`: the source hashes
`f"{document_id}_{index}"` with MD5 and keeps 16 hex characters.  The hash
itself is an opaque derivation from document id and ordinal; it is modelled
by the unhashed key (no claim depends on the id values). -/
def generateChunkId (documentId : Str) (index : Nat) : Str :=
  documentId ++ '_' :: (Nat.repr index).toList

/-- Final metadata truncation of `split`:
`(chunk.chapter or "")[:500] if chunk.chapter else None`. -/
def truncMeta (v : Option Str) : Option Str :=
  match v with
  | some s => if s = [] then none else some (s.take 500)
  | none => none

/-- `StructuralSplitter.split`.  The `pages` argument of the source is
accepted and never used (`current_start_page` stays 1), so it is omitted
here. -/
def structuralSplit (maxChars minChars overlap : Nat)
    (text documentId documentName : Str) : List Chunk :=
  if pyStrip text = [] then []
  else
    let chunks :=
      splitLines maxChars minChars overlap documentId documentName
        (splitOnChar '\n' text) [] none none []
    chunks.mapIdx (fun i c =>
      { c with
        id := generateChunkId documentId i
        chapter := truncMeta c.chapter
        article := truncMeta c.article })

/-!
Ingestion pipeline (`ccba_rag/ingestion/pipeline/base.py`,
`.../pipeline/stages.py`, `.../report.py`, `.../indexing_service.py`).
-/

/-- Values stored in `PipelineContext.stats` (ints/floats). -/
inductive StatVal where
  | nat (n : Nat)
  | rat (q : ℚ)
deriving Repr, DecidableEq

/-- `PipelineContext`: metadata and stats are insertion-ordered dicts,
errors an ordered list. -/
structure Ctx where
  filePath : Str
  metadata : List (Str × Option Str) := []
  stats : List (Str × StatVal) := []
  errors : List Str := []
deriving Repr, DecidableEq

/-- Dict access `d.get(k)`: the value of the first entry with key `k`. -/
def dictGet {α : Type} : List (Str × α) → Str → Option α
  | [], _ => none
  | kv :: rest, k' => if k' = kv.1 then some kv.2 else dictGet rest k'

/-- Dict update `d[k] = v` preserving insertion order. -/
def upsert {α : Type} (m : List (Str × α)) (k : Str) (v : α) : List (Str × α) :=
  if (dictGet m k).isSome then
    m.map (fun kv => if kv.1 = k then (k, v) else kv)
  else m ++ [(k, v)]

/-- Per-page info handed over by the document loader. -/
structure PageInfo where
  pageNumber : Nat
  text : Str
  charCount : Nat
deriving Repr, DecidableEq

/-- `{text, pages, stats}` payload produced by the Load stage. -/
structure DocData where
  text : Str
  pages : List PageInfo
  totalPages : Nat
  totalChars : Nat
deriving Repr, DecidableEq

/-- Payload passed between stages. -/
inductive Payload where
  | path (p : Str)
  | doc (d : DocData)
  | chunks (cs : List Chunk)
deriving Repr, DecidableEq

/-- Result of one stage call: either an exception carrying the message and
the context as mutated up to the raise, or a new context plus `None`
(short-circuit) or a payload. -/
inductive StageRes where
  | raised (msg : Str) (ctx : Ctx)
  | ok (ctx : Ctx) (out : Option Payload)

/-- A pipeline stage (`PipelineStage.run`). -/
def Stage : Type := Ctx → Payload → StageRes

/-- `IngestionPipeline.run` loop: thread the payload through the stages,
stop on `None`, convert an exception into an appended context error. -/
def runStages : List Stage → Ctx → Payload → Ctx
  | [], ctx, _ => ctx
  | s :: rest, ctx, p =>
    match s ctx p with
    | StageRes.raised m c => { c with errors := c.errors ++ [m] }
    | StageRes.ok c none => c
    | StageRes.ok c (some p') => runStages rest c p'

/-- `IngestionPipeline.run`: fresh context, file path as initial payload. -/
def runPipeline (stages : List Stage) (filePath : Str) : Ctx :=
  runStages stages { filePath := filePath } (Payload.path filePath)

/-- Normal execution of a prefix of stages: `some (ctx, payload)` when every
stage returned a payload (no raise, no short-circuit).  Used to address "the
state reached before stage i" in the claims. -/
def execOk : List Stage → Ctx → Payload → Option (Ctx × Payload)
  | [], ctx, p => some (ctx, p)
  | s :: rest, ctx, p =>
    match s ctx p with
    | StageRes.ok c (some p') => execOk rest c p'
    | _ => none

/-- Metadata record returned by `DocumentMetadataExtractor.extract`
(the extractor itself is regex/LLM glue outside the verified core; its
output is universally quantified). -/
structure MetaOut where
  documentCode : Option Str
  documentType : Option Str
  amendmentNumber : Option Str
  amendsDocument : Option Str
deriving Repr, DecidableEq

/-- `Path(file_path).name`. -/
def pyBasename (p : Str) : Str := (splitOnChar '/' p).getLastD p

/-- Stage 1, `LoadStage.run`: parse the file (external parser), record page
and character counts, or re-raise the parser's exception. -/
def loadStage (parse : Str → Except Str DocData) : Stage := fun ctx payload =>
  match payload with
  | Payload.path p =>
    match parse p with
    | Except.error e => StageRes.raised e ctx
    | Except.ok d =>
      StageRes.ok
        { ctx with
          stats := upsert (upsert ctx.stats "pages".toList (StatVal.nat d.totalPages))
            "total_chars".toList (StatVal.nat d.totalChars) }
        (some (Payload.doc d))
  | _ => StageRes.raised "type error".toList ctx

/-- `generate_document_id`: the normalized document code when present and
non-empty after normalization, otherwise an MD5-derived path hash (modelled
opaquely by the path itself; no claim depends on the value). -/
def generateDocumentId (normalize : Str → Str) (filePath : Str)
    (documentCode : Option Str) : Str :=
  match documentCode with
  | some c =>
    if c ≠ [] then
      let n := normalize c
      if n ≠ [] then n else filePath
    else filePath
  | none => filePath

/-- Stage 2, `MetadataStage.run`: write the four extractor fields and the
derived `document_id` into `context.metadata`, pass the payload through. -/
def metadataStage (extract : Str → Str → MetaOut) (normalize : Str → Str) :
    Stage := fun ctx payload =>
  match payload with
  | Payload.doc d =>
    let meta := extract d.text (pyBasename ctx.filePath)
    let m1 := upsert ctx.metadata "document_code".toList meta.documentCode
    let m2 := upsert m1 "document_type".toList meta.documentType
    let m3 := upsert m2 "amendment_number".toList meta.amendmentNumber
    let m4 := upsert m3 "amends_document".toList meta.amendsDocument
    let docId := generateDocumentId normalize ctx.filePath meta.documentCode
    let m5 := upsert m4 "document_id".toList (some docId)
    StageRes.ok { ctx with metadata := m5 } (some (Payload.doc d))
  | _ => StageRes.raised "type error".toList ctx

/-- Document-id extraction of `ChunkStage.run`
(`context.metadata.get('document_id')`; a missing id would be Python `None`,
rendered `"None"` by the f-string in `_generate_chunk_id`). -/
def chunkDocId (metadata : List (Str × Option Str)) : Str :=
  match dictGet metadata "document_id".toList with
  | some (some s) => s
  | _ => "None".toList

/-- Metadata propagation of `ChunkStage.run`: copy a truthy `document_code`
onto every chunk. -/
def attachDocCode (metadata : List (Str × Option Str)) (cs : List Chunk) :
    List Chunk :=
  match dictGet metadata "document_code".toList with
  | some (some code) =>
    if code ≠ [] then cs.map (fun c => { c with documentCode := some code })
    else cs
  | _ => cs

/-- Stage 3, `ChunkStage.run`: run the structural splitter; zero chunks
short-circuit with `None`; otherwise propagate `document_code` onto each
chunk and record `chunks_created`. -/
def chunkStage (maxChars minChars overlap : Nat) : Stage := fun ctx payload =>
  match payload with
  | Payload.doc d =>
    let cs := structuralSplit maxChars minChars overlap d.text
      (chunkDocId ctx.metadata) (pyBasename ctx.filePath)
    if cs = [] then StageRes.ok ctx none
    else
      let cs' := attachDocCode ctx.metadata cs
      StageRes.ok
        { ctx with stats := upsert ctx.stats "chunks_created".toList (StatVal.nat cs'.length) }
        (some (Payload.chunks cs'))
  | _ => StageRes.raised "type error".toList ctx

/-- Vector attachment of `EmbedStage`: Python `zip` truncates to the
shortest list and the mutated chunk list is returned whole. -/
def zipAttach : List Chunk → List (List ℚ) → List (List (Nat × ℚ)) → List Chunk
  | c :: cs, d :: ds, s :: ss =>
    { c with denseVector := some d, sparseVector := some s } :: zipAttach cs ds ss
  | cs, _, _ => cs

/-- Stage 4, `EmbedStage.run`: encode all texts (external model, run in a
worker thread), attach vectors, return the chunk list. -/
def embedStage
    (encode : List Str → Except Str (List (List ℚ) × List (List (Nat × ℚ)))) :
    Stage := fun ctx payload =>
  match payload with
  | Payload.chunks cs =>
    match encode (cs.map Chunk.text) with
    | Except.error e => StageRes.raised e ctx
    | Except.ok ds => StageRes.ok ctx (some (Payload.chunks (zipAttach cs ds.1 ds.2)))
  | _ => StageRes.raised "type error".toList ctx

/-- Stage 5, `VectorStoreStage.run`: insert into the vector store (external),
re-raising its exception. -/
def storeStage (insert : List Chunk → Except Str Unit) : Stage := fun ctx payload =>
  match payload with
  | Payload.chunks cs =>
    match insert cs with
    | Except.error e => StageRes.raised e ctx
    | Except.ok _ => StageRes.ok ctx (some (Payload.chunks cs))
  | _ => StageRes.raised "type error".toList ctx

/-- The error message appended by `VerifyStage` on an empty final chunk
set. -/
def verifyErrMsg : Str := "Verification Failed: 0 chunks were indexed".toList

/-- Stage 6, `VerifyStage.run`: record coverage and `chunks_indexed`, append
`verifyErrMsg` (without raising) if the count is zero. -/
def verifyStage : Stage := fun ctx payload =>
  match payload with
  | Payload.chunks cs =>
    let chunkChars : ℚ := (cs.map (fun c => c.text.length)).sum
    let coverage : ℚ :=
      match dictGet ctx.stats "total_chars".toList with
      | some (StatVal.nat n) => if n > 0 then chunkChars / n * 100 else 0
      | _ => 0
    let st1 := upsert ctx.stats "coverage".toList (StatVal.rat coverage)
    let st2 := upsert st1 "chunks_indexed".toList (StatVal.nat cs.length)
    let errs := if cs.length = 0 then ctx.errors ++ [verifyErrMsg] else ctx.errors
    StageRes.ok { ctx with stats := st2, errors := errs } (some (Payload.chunks cs))
  | _ => StageRes.raised "type error".toList ctx

/-- The six-stage pipeline assembled by `IndexingService.__init__`. -/
def assembledStages (parse : Str → Except Str DocData)
    (extract : Str → Str → MetaOut) (normalize : Str → Str)
    (encode : List Str → Except Str (List (List ℚ) × List (List (Nat × ℚ))))
    (insert : List Chunk → Except Str Unit)
    (maxChars minChars overlap : Nat) : List Stage :=
  [loadStage parse, metadataStage extract normalize,
   chunkStage maxChars minChars overlap, embedStage encode,
   storeStage insert, verifyStage]

/-- Status computed by `IngestionReport.add_result`:
`"success" if not context.errors else "failed"`, downgraded to `"skipped"`
when both metadata and errors are empty. -/
def reportStatus (ctx : Ctx) : Str :=
  if ctx.errors = [] then
    if ctx.metadata = [] then "skipped".toList else "success".toList
  else "failed".toList

/-!
Hybrid retrieval (`ccba_rag/retrieval/vectorstores/milvus.py` RRF fusion and
`ccba_rag/retrieval/retriever.py` filter construction).
-/

/-- Output fields of one Milvus hit (`hit.entity.get(...)`); `bbox` is
modelled as the already-parsed value (the source stores it as a JSON string
and parses it back on read). -/
structure HitEntity where
  documentId : Str := []
  documentName : Str := []
  text : Str := []
  pageNumber : Nat := 1
  chapter : Option Str := none
  article : Option Str := none
  clause : Option Str := none
  parentId : Option Str := none
  level : Str := "clause".toList
  fullContext : Option Str := none
  bbox : Option (List ℚ) := none
deriving Repr, DecidableEq

/-- One search hit: primary key plus output fields. -/
structure Hit where
  id : Str
  entity : HitEntity
deriving Repr, DecidableEq

/-- `ChunkLevel(level_str)` with the `except` fallback to `CLAUSE`. -/
def parseLevel (s : Str) : ChunkLevel :=
  if s = "document".toList then ChunkLevel.document
  else if s = "chapter".toList then ChunkLevel.chapter
  else if s = "article".toList then ChunkLevel.article
  else if s = "section".toList then ChunkLevel.section
  else ChunkLevel.clause

/-- Chunk reconstructed from a hit inside `process_hits`. -/
def chunkOfHit (h : Hit) : Chunk :=
  { id := h.id
    documentId := h.entity.documentId
    documentName := h.entity.documentName
    text := h.entity.text
    pageNumber := h.entity.pageNumber
    chapter := h.entity.chapter
    article := h.entity.article
    clause := h.entity.clause
    parentId := h.entity.parentId
    level := parseLevel h.entity.level
    fullContext := h.entity.fullContext
    bbox := h.entity.bbox }

/-- The RRF constant `k = 60`. -/
def rrfK : Nat := 60

/-- One RRF contribution `1 / (k + rank + 1)` for a 0-based rank. -/
def rrfTerm (rank : Nat) : ℚ := 1 / (rrfK + rank + 1)

/-- `rrf_scores[doc_id] += v` with implicit 0 initialisation; the key is
appended on first sight (Python dict insertion order). -/
def addScore (scores : List (Str × ℚ)) (id : Str) (v : ℚ) : List (Str × ℚ) :=
  if (dictGet scores id).isSome then
    scores.map (fun kv => if kv.1 = id then (kv.1, kv.2 + v) else kv)
  else scores ++ [(id, v)]

/-- `if doc_id not in chunks_map: chunks_map[doc_id] = Chunk(...)`. -/
def addChunk (cmap : List (Str × Chunk)) (h : Hit) : List (Str × Chunk) :=
  if (dictGet cmap h.id).isSome then cmap else cmap ++ [(h.id, chunkOfHit h)]

/-- `process_hits` with an explicit running rank (the `enumerate` index). -/
def processHitsGo (rank : Nat) :
    List Hit → List (Str × ℚ) × List (Str × Chunk) →
    List (Str × ℚ) × List (Str × Chunk)
  | [], st => st
  | h :: rest, (scores, cmap) =>
    processHitsGo (rank + 1) rest (addScore scores h.id (rrfTerm rank), addChunk cmap h)

/-- `process_hits(hits)` starting at rank 0. -/
def processHits (hits : List Hit)
    (st : List (Str × ℚ) × List (Str × Chunk)) :
    List (Str × ℚ) × List (Str × Chunk) :=
  processHitsGo 0 hits st

/-- Fused score of an id (`rrf_scores[uid]`, 0 when absent — never hit for
ids produced by the fusion). -/
def scoreOf (scores : List (Str × ℚ)) (id : Str) : ℚ :=
  (dictGet scores id).getD 0

/-- `RetrievalResult`. -/
structure RetrievalResult where
  chunk : Chunk
  score : ℚ
  rank : Nat
deriving Repr, DecidableEq

/-- Descending-by-score order used by
`sorted(rrf_scores.keys(), key=..., reverse=True)`. -/
def scoreGE (scores : List (Str × ℚ)) (a b : Str) : Prop :=
  scoreOf scores b ≤ scoreOf scores a

instance (scores : List (Str × ℚ)) : DecidableRel (scoreGE scores) :=
  fun a b => inferInstanceAs (Decidable (scoreOf scores b ≤ scoreOf scores a))

/-- RRF fusion part of `MilvusStore.search` (everything after the two
external `collection.search` calls): fuse the dense and sparse hit lists,
sort ids by fused score descending (Python `sorted` is stable; so is
insertion sort with this order), truncate to `top_k` and build results with
1-based ranks. -/
def milvusFuse (denseHits sparseHits : List Hit) (topK : Nat) :
    List RetrievalResult :=
  let st := processHits sparseHits (processHits denseHits ([], []))
  let sortedIds := (st.1.map Prod.fst).insertionSort (scoreGE st.1)
  ((sortedIds.take topK).enum).map (fun p =>
    { chunk := (dictGet st.2 p.2).getD default
      score := scoreOf st.1 p.2
      rank := p.1 + 1 })

/-!
Filter construction (`HybridRetriever._build_filter_expr`).
-/

/-- A Python value that can appear in the filters mapping. -/
inductive PyVal where
  | str (s : Str)
  | list (vs : List Str)
  | intv (n : Int)
deriving Repr, DecidableEq

/-- Quoted rendering `f'"{v}"'`. -/
def quoteVal (v : Str) : Str := '"' :: v ++ ['"']

/-- Condition built for one filter entry, when one is built at all: a list
value becomes `key in [...]`, a string value `key == "..."`; any other
scalar produces no condition. -/
def condOf (kv : Str × PyVal) : Option Str :=
  match kv.2 with
  | PyVal.list vs =>
    some (kv.1 ++ " in [".toList ++ joinSep [','] (vs.map quoteVal) ++ [']'])
  | PyVal.str s => some (kv.1 ++ " == ".toList ++ quoteVal s)
  | PyVal.intv _ => none

/-- Loop of `_build_filter_expr` accumulating the conditions list. -/
def buildConditions : List (Str × PyVal) → List Str → List Str
  | [], acc => acc
  | kv :: rest, acc =>
    match condOf kv with
    | some c => buildConditions rest (acc ++ [c])
    | none => buildConditions rest acc

/-- `HybridRetriever._build_filter_expr`. -/
def buildFilterExpr (filters : List (Str × PyVal)) : Option Str :=
  if filters = [] then none
  else
    let conditions := buildConditions filters []
    if conditions ≠ [] then some (joinSep " and ".toList conditions) else none

/-!
Generation chain (`ccba_rag/generation/chain.py`).
-/

/-- Result dict of `BaseGenerator.generate`: every generator in the source
builds `base_result` with all keys present, `answer` being `None` until a
successful call fills it. -/
structure GenResult where
  answer : Option Str := none
  model : Option Str := none
  prompt : Option Str := none
  error : Option Str := none
  errorType : Option Str := none
deriving Repr, DecidableEq

/-- Python truthiness of `gen_result.get('answer')`. -/
def pyTruthy (o : Option Str) : Bool :=
  match o with
  | some s => !s.isEmpty
  | none => false

/-- The error types for which fallback is attempted. -/
def fallbackErrorTypes : List Str :=
  ["RATE_LIMIT_ERROR".toList, "API_UNAVAILABLE".toList, "UNKNOWN_ERROR".toList]

/-- `RAGChain._needs_fallback`. -/
def needsFallback (r : GenResult) : Bool :=
  if pyTruthy r.answer then false
  else
    match r.errorType with
    | some t => fallbackErrorTypes.contains t
    | none => false

/-- The fixed empty-retrieval answer of `RAGChain.query`. -/
def noInfoMsg : Str :=
  "Không tìm thấy thông tin liên quan trong cơ sở dữ liệu.".toList

/-- Context dicts handed from the retriever to the generators. -/
def CtxDict : Type := List (Str × Str)

/-- Result of `RAGChain.query` (timing fields are carried opaquely in
`stats`). -/
structure QueryResult where
  answer : Option Str
  contexts : List CtxDict
  stats : List (Str × ℚ)
  model : Option Str
  usedFallback : Bool
  error : Option Str := none
  errorType : Option Str := none

/-- `RAGChain.query` after the (external) retrieval call: `contexts` and
`retrievalStats` are the retriever's output; `primary` and `fallback` are
the generators, called on the user query and contexts.  `usedFallback`
is `true` exactly when `fallback.generate` was invoked. -/
def ragQuery (userQuery : Str) (contexts : List CtxDict)
    (retrievalStats : List (Str × ℚ))
    (primary : Str → List CtxDict → GenResult)
    (fallback : Option (Str → List CtxDict → GenResult)) : QueryResult :=
  if contexts.isEmpty then
    { answer := some noInfoMsg
      contexts := []
      stats := retrievalStats
      model := none
      usedFallback := false }
  else
    let genResult := primary userQuery contexts
    let fired :=
      match fallback with
      | some fb =>
        if needsFallback genResult then (fb userQuery contexts, true)
        else (genResult, false)
      | none => (genResult, false)
    { answer := fired.1.answer
      contexts := contexts
      stats := retrievalStats
      model := fired.1.model
      usedFallback := fired.2
      error := fired.1.error
      errorType := fired.1.errorType }

/-!
Specification-side definitions used to state the claims (these restate the
claims' wording, to be compared with the embedded code above).
-/

/-- 0-based position of the first hit with the given id. -/
def idxOf? (id : Str) : List Hit → Option Nat
  | [] => none
  | h :: rest => if h.id = id then some 0 else (idxOf? id rest).map (· + 1)

/-- First hit carrying the given id (the hit whose field values the fused
candidate keeps). -/
def firstHit (id : Str) : List Hit → Option Hit
  | [] => none
  | h :: rest => if h.id = id then some h else firstHit id rest

/-- The RRF contribution of one ranked list as worded by the spec:
`1 / (k + rank + 1)` at the candidate's 0-based position, 0 when absent. -/
def rrfContrib (hits : List Hit) (id : Str) : ℚ :=
  match idxOf? id hits with
  | some i => rrfTerm i
  | none => 0

/-- Hit with default entity fields, for the spec's RRF example. -/
def exHit (id : Str) : Hit := { id := id, entity := {} }

instance (scores : List (Str × ℚ)) : IsTotal Str (scoreGE scores) :=
  ⟨fun a b => le_total (scoreOf scores b) (scoreOf scores a)⟩

instance (scores : List (Str × ℚ)) : IsTrans Str (scoreGE scores) :=
  ⟨fun _ _ _ hab hbc => le_trans hbc hab⟩

/-- Accumulated RRF contribution of a hit list starting at a given rank
(sums over every occurrence; coincides with `rrfContrib` on duplicate-free
lists). -/
def contribFrom (rank : Nat) : List Hit → Str → ℚ
  | [], _ => 0
  | h :: rest, id =>
    (if h.id = id then rrfTerm rank else 0) + contribFrom (rank + 1) rest id

/-- Sum of the text lengths of a chunk list (the quantity of the coverage
bound). -/
def textLenSum (cs : List Chunk) : Nat := (cs.map (fun c => c.text.length)).sum

/-- Sum of the non-whitespace character counts of a list of strings. -/
def cnwSum (l : List Str) : Nat := (l.map countNonWs).sum

/-- Absence of a substring occurrence: no suffix of `t` starts with `sep`. -/
def noOcc (sep t : Str) : Prop := ∀ suff : Str, suff <:+ t → ¬ sep.isPrefixOf suff

/-- Overlap seed of the paragraph-packing loop: up to `overlap` trailing
characters of the group's last paragraph, the whole paragraph if shorter. -/
def paraSeed (overlap : Nat) (g : List Str) : Str :=
  let lastP := g.getLastD []
  if lastP.length ≤ overlap then lastP else takeLastChars overlap lastP

/-- Size discipline of one packed unit group: either the packed unit lengths
fit in `maxChars`, or the group is a (seed +) single oversized unit. -/
def groupFits (maxChars : Nat) (g : List Str) : Prop :=
  (g.map List.length).sum ≤ maxChars ∨ g.length ≤ 2

/-- Sum of the non-whitespace character counts of the texts of a chunk
list (the coverage quantity tracked through the splitter). -/
def chunkCnw (cs : List Chunk) : Nat := (cs.map (fun c => countNonWs c.text)).sum

/-- Shape of the block units accumulated by the line loop of `split`:
non-empty, newline-free, and ending in a non-whitespace character. -/
def goodUnit (u : Str) : Prop :=
  u ≠ [] ∧ '\n' ∉ u ∧ isPyWs (u.getLastD 'a') = false

/-- No two adjacent newline characters (no paragraph break). -/
def noNN (a b : Char) : Prop := ¬ (a = '\n' ∧ b = '\n')

/-- Sum of the non-whitespace character counts over packed unit groups. -/
def gCnw (gs : List (List Str)) : Nat := (gs.map cnwSum).sum

/-!
Theorems.  Each claim `Ci` of the specification is settled by one theorem
(plus a witness when the theorem carries hypotheses, and a counterexample
when the claim as stated fails on the code).
-/

lemma needsFallback_iff (r : GenResult) :
    needsFallback r = true ↔
      pyTruthy r.answer = false ∧
        ∃ t, r.errorType = some t ∧ t ∈ fallbackErrorTypes := by
  unfold needsFallback
  cases het : r.errorType with
  | none => cases ha : pyTruthy r.answer <;> simp [ha]
  | some t =>
    cases ha : pyTruthy r.answer <;> simp [ha, List.elem_iff]

/-- C4: in `RAGChain.query` (once retrieval produced contexts), the fallback
generator is invoked — equivalently, the result's `used_fallback` flag is
set, which the source does exactly when it calls `fallback.generate` — iff
the primary result has no (truthy) answer, its classified error type is one
of `RATE_LIMIT_ERROR`, `API_UNAVAILABLE`, `UNKNOWN_ERROR`, and a fallback
generator is configured; an `AUTH_ERROR` classification never triggers the
fallback. -/
theorem C4_fallback_gating (q : Str) (contexts : List CtxDict)
    (stats : List (Str × ℚ)) (primary : Str → List CtxDict → GenResult)
    (fallback : Option (Str → List CtxDict → GenResult))
    (h : contexts ≠ []) :
    ((ragQuery q contexts stats primary fallback).usedFallback = true ↔
      (pyTruthy (primary q contexts).answer = false ∧
       (∃ t, (primary q contexts).errorType = some t ∧ t ∈ fallbackErrorTypes) ∧
       fallback.isSome = true)) ∧
    ((primary q contexts).errorType = some "AUTH_ERROR".toList →
      (ragQuery q contexts stats primary fallback).usedFallback = false) := by
  obtain ⟨c0, cs0, rfl⟩ : ∃ c0 cs0, contexts = c0 :: cs0 := by
    cases contexts with
    | nil => exact absurd rfl h
    | cons a l => exact ⟨a, l, rfl⟩
  have hauth : ∀ r : GenResult, r.errorType = some "AUTH_ERROR".toList →
      needsFallback r = false := by
    intro r het
    by_cases hb : needsFallback r = true
    · obtain ⟨-, t, ht, hmem⟩ := (needsFallback_iff r).mp hb
      rw [het] at ht
      obtain rfl : t = "AUTH_ERROR".toList := by injection ht.symm
      exact absurd hmem (by decide)
    · simpa using hb
  cases hfb : fallback with
  | none =>
    constructor
    · simp [ragQuery]
    · intro _; simp [ragQuery]
  | some fb =>
    constructor
    · by_cases hnf : needsFallback (primary q (c0 :: cs0)) = true
      · simp only [ragQuery, List.isEmpty_cons, Bool.false_eq_true, if_false, hnf,
          if_true, Option.isSome_some, and_true]
        obtain ⟨h1, h2⟩ := (needsFallback_iff _).mp hnf
        simp [h1, h2]
      · simp only [ragQuery, List.isEmpty_cons, Bool.false_eq_true, if_false,
          hnf, if_false]
        constructor
        · intro hcontra; exact absurd hcontra (by simp)
        · rintro ⟨h1, h2, -⟩
          exact absurd ((needsFallback_iff _).mpr ⟨h1, h2⟩) hnf
    · intro het
      have := hauth _ het
      simp [ragQuery, this]

/-- C4 witness: with one context, a primary result classified
`RATE_LIMIT_ERROR` with no answer, and a configured fallback, the fallback
fires. -/
theorem C4_fallback_gating_witness :
    (ragQuery "q".toList [[]] []
      (fun _ _ => { answer := none, errorType := some "RATE_LIMIT_ERROR".toList })
      (some (fun _ _ => { answer := some "ok".toList }))).usedFallback = true := by
  refine (C4_fallback_gating "q".toList [[]] []
    (fun _ _ => { answer := none, errorType := some "RATE_LIMIT_ERROR".toList })
    (some (fun _ _ => { answer := some "ok".toList }))
    (by simp)).1.mpr ⟨rfl, ⟨"RATE_LIMIT_ERROR".toList, rfl, by decide⟩, rfl⟩

/-- C8: when retrieval yields zero contexts, `RAGChain.query` returns the
fixed no-information answer with empty contexts and `used_fallback = false`;
the result is the same for every primary and fallback generator, i.e. no
generator is called. -/
theorem C8_empty_retrieval_short_circuit (q : Str) (stats : List (Str × ℚ))
    (primary : Str → List CtxDict → GenResult)
    (fallback : Option (Str → List CtxDict → GenResult)) :
    ragQuery q [] stats primary fallback =
      { answer := some noInfoMsg, contexts := [], stats := stats,
        model := none, usedFallback := false } := rfl

lemma buildConditions_eq (l : List (Str × PyVal)) (acc : List Str) :
    buildConditions l acc = acc ++ l.filterMap condOf := by
  induction l generalizing acc with
  | nil => simp [buildConditions]
  | cons kv rest ih =>
    cases h : condOf kv with
    | none => simp [buildConditions, h, ih]
    | some c => simp [buildConditions, h, ih]

lemma length_filterMap_of_isSome {α β : Type} (f : α → Option β) :
    ∀ l : List α, (∀ a ∈ l, (f a).isSome) → (l.filterMap f).length = l.length := by
  intro l
  induction l with
  | nil => simp
  | cons a rest ih =>
    intro h
    cases hfa : f a with
    | none => exact absurd (h a (by simp)) (by simp [hfa])
    | some b =>
      simp only [List.filterMap_cons, hfa, List.length_cons]
      rw [ih (fun x hx => h x (by simp [hx]))]

/-- C9 counterexample: the claim says every field of a non-empty filter
mapping contributes exactly one condition (scalars become equality
conditions), but a non-string scalar value — here the integer 5 — yields no
condition at all, and the whole expression collapses to `None`. -/
theorem C9_counterexample :
    buildFilterExpr [("page".toList, PyVal.intv 5)] = none ∧
    buildConditions [("page".toList, PyVal.intv 5)] [] = [] ∧
    ([("page".toList, PyVal.intv 5)] : List (Str × PyVal)).length = 1 := by
  refine ⟨by decide, by decide, rfl⟩

/-- C9 (amended): for a non-empty filter mapping, the expression is the
`" and "`-conjunction of the conditions of the fields whose value is a list
(`in` condition) or a string (equality condition); fields with other scalar
values contribute no condition, and if no condition results the expression
is `None`.  When every value is a string or a list, there is exactly one
condition per field. -/
theorem C9_filter_construction (filters : List (Str × PyVal))
    (h : filters ≠ []) :
    (buildFilterExpr filters =
      if filters.filterMap condOf = [] then none
      else some (joinSep " and ".toList (filters.filterMap condOf))) ∧
    ((∀ kv ∈ filters, (condOf kv).isSome) →
      (filters.filterMap condOf).length = filters.length) := by
  constructor
  · unfold buildFilterExpr
    rw [if_neg h, buildConditions_eq]
    simp only [List.nil_append]
    by_cases hc : filters.filterMap condOf = []
    · simp [hc]
    · simp [hc]
  · exact length_filterMap_of_isSome condOf filters

/-- C9 witness: a one-field string filter produces the single equality
condition. -/
theorem C9_filter_construction_witness :
    buildFilterExpr [("doc".toList, PyVal.str "x".toList)] =
      some "doc == \"x\"".toList ∧
    ([("doc".toList, PyVal.str "x".toList)].filterMap condOf).length = 1 := by
  have h := C9_filter_construction [("doc".toList, PyVal.str "x".toList)] (by decide)
  refine ⟨?_, h.2 (by decide)⟩
  rw [h.1]
  decide

/-- C2: evaluation of `StructuralSplitter.split` on the spec's merge
example.  With `min_chars = 100` both article blocks are far shorter than
`min_chars`, yet the split yields one separate chunk per article marker
(2 chunks for 2 markers, the second block's text not appended to the first
chunk): `split` never passes its accumulated chunks as `existing_chunks` to
`_create_chunks_from_block`, so the merge branch can never see a previous
chunk from an earlier block. -/
theorem C2_short_blocks_not_merged :
    (structuralSplit 2000 100 200 "Điều 1. A.\nĐiều 2. B.".toList
        "doc".toList "doc".toList).map Chunk.text =
      ["Điều 1. A.".toList, "Điều 2. B.".toList] := by
  decide

lemma runStages_append (pre rest : List Stage) (ctx : Ctx) (p : Payload)
    (c : Ctx) (p' : Payload)
    (h : execOk pre ctx p = some (c, p')) :
    runStages (pre ++ rest) ctx p = runStages rest c p' := by
  induction pre generalizing ctx p with
  | nil =>
    simp only [execOk, Option.some.injEq, Prod.mk.injEq] at h
    rw [List.nil_append, h.1, h.2]
  | cons s pre ih =>
    simp only [execOk] at h
    cases hs : s ctx p with
    | raised m c2 => rw [hs] at h; exact absurd h (by simp)
    | ok c2 o =>
      cases o with
      | none => rw [hs] at h; exact absurd h (by simp)
      | some p2 =>
        rw [hs] at h
        rw [List.cons_append]
        show (match s ctx p with
          | StageRes.raised m c => { c with errors := c.errors ++ [m] }
          | StageRes.ok c none => c
          | StageRes.ok c (some p') => runStages (pre ++ rest) c p') = _
        rw [hs]
        exact ih c2 p2 h

/-- C5: `IngestionPipeline.run` is a total function of the stage list and
file path (it never raises: stage exceptions are converted into context
errors).  If the stages before `s` all succeeded, reaching context `c` and
payload `p`, then: a raise in `s` stops the pipeline immediately — the
remaining stages `post` are irrelevant — and returns `c'` (the context with
whatever metadata/stats `s` accumulated before raising) with the error
message appended; and `s` returning `None` stops the pipeline and returns
`c'` unchanged. -/
theorem C5_stage_failure_containment (pre : List Stage) (s : Stage)
    (post : List Stage) (file : Str) (c : Ctx) (p : Payload)
    (hpre : execOk pre { filePath := file } (Payload.path file) = some (c, p)) :
    (∀ m c', s c p = StageRes.raised m c' →
      runPipeline (pre ++ s :: post) file = { c' with errors := c'.errors ++ [m] }) ∧
    (∀ c', s c p = StageRes.ok c' none →
      runPipeline (pre ++ s :: post) file = c') := by
  constructor
  · intro m c' hs
    rw [runPipeline, runStages_append pre (s :: post) _ _ c p hpre]
    show (match s c p with
      | StageRes.raised m c => { c with errors := c.errors ++ [m] }
      | StageRes.ok c none => c
      | StageRes.ok c (some p') => runStages post c p') = _
    rw [hs]
  · intro c' hs
    rw [runPipeline, runStages_append pre (s :: post) _ _ c p hpre]
    show (match s c p with
      | StageRes.raised m c => { c with errors := c.errors ++ [m] }
      | StageRes.ok c none => c
      | StageRes.ok c (some p') => runStages post c p') = _
    rw [hs]

/-- C5 witness: a single raising stage yields the initial context with the
exception message appended (any further stages would be skipped). -/
theorem C5_stage_failure_containment_witness :
    runPipeline [fun ctx _ => StageRes.raised "boom".toList ctx] "f".toList =
      { filePath := "f".toList, errors := ["boom".toList] } := by
  have h := (C5_stage_failure_containment []
    (fun ctx _ => StageRes.raised "boom".toList ctx) [] "f".toList
    { filePath := "f".toList } (Payload.path "f".toList) rfl).1
    "boom".toList { filePath := "f".toList } rfl
  simpa using h

lemma dictGet_map_update {α : Type} (m : List (Str × α)) (k k' : Str) (v : α) :
    dictGet (m.map (fun kv => if kv.1 = k then (k, v) else kv)) k' =
      if k' = k then (dictGet m k).map (fun _ => v) else dictGet m k' := by
  induction m with
  | nil => simp [dictGet]
  | cons kv rest ih =>
    obtain ⟨a, b⟩ := kv
    by_cases hak : a = k
    · subst hak
      by_cases hk : k' = a
      · subst hk
        simp [dictGet, ih]
      · simp [dictGet, hk, ih]
    · by_cases hk : k' = a
      · subst hk
        have hkk : ¬ k' = k := hak
        simp [dictGet, hak, hkk]
      · simp [dictGet, hak, hk, ih, show ¬ k = a from fun hc => hak hc.symm]

lemma dictGet_append_single {α : Type} (m : List (Str × α)) (k k' : Str) (v : α) :
    dictGet (m ++ [(k, v)]) k' =
      match dictGet m k' with
      | some b => some b
      | none => if k' = k then some v else none := by
  induction m with
  | nil => by_cases hk : k' = k <;> simp [dictGet, hk]
  | cons kv rest ih =>
    by_cases hk : k' = kv.1
    · simp [dictGet, hk]
    · simp [dictGet, hk, ih]

lemma dictGet_upsert_self {α : Type} (m : List (Str × α)) (k : Str) (v : α) :
    dictGet (upsert m k v) k = some v := by
  unfold upsert
  by_cases hp : (dictGet m k).isSome
  · rw [if_pos hp, dictGet_map_update, if_pos rfl]
    obtain ⟨b, hb⟩ := Option.isSome_iff_exists.mp hp
    simp [hb]
  · rw [if_neg hp, dictGet_append_single]
    rw [Option.not_isSome_iff_eq_none] at hp
    simp [hp]

lemma dictGet_upsert_ne {α : Type} (m : List (Str × α)) (k k' : Str) (v : α)
    (h : k' ≠ k) : dictGet (upsert m k v) k' = dictGet m k' := by
  unfold upsert
  by_cases hp : (dictGet m k).isSome
  · rw [if_pos hp, dictGet_map_update, if_neg h]
  · rw [if_neg hp, dictGet_append_single]
    cases hm : dictGet m k' with
    | some b => rfl
    | none => simp [h]

lemma upsert_ne_nil {α : Type} (m : List (Str × α)) (k : Str) (v : α) :
    upsert m k v ≠ [] := by
  unfold upsert
  by_cases hp : (dictGet m k).isSome
  · rw [if_pos hp]
    intro hcontra
    rw [List.map_eq_nil] at hcontra
    subst hcontra
    simp [dictGet] at hp
  · rw [if_neg hp]
    simp

/-- Helper: a context with empty errors and non-empty metadata is reported
as `"success"`. -/
lemma reportStatus_success (ctx : Ctx) (he : ctx.errors = [])
    (hm : ctx.metadata ≠ []) : reportStatus ctx = "success".toList := by
  unfold reportStatus
  rw [if_pos he, if_neg hm]

/-- C6 counterexample: a file whose parsed text is whitespace-only (so the
Chunk stage yields zero chunks and returns `None`) is recorded by
`IngestionReport.add_result` with status `"success"`, not `"skipped"`: the
Metadata stage has already populated `context.metadata`, and `add_result`
marks `"skipped"` only when the metadata dict is empty. -/
theorem C6_counterexample :
    reportStatus (runPipeline (assembledStages
      (fun _ => Except.ok { text := "   ".toList, pages := [], totalPages := 1, totalChars := 3 })
      (fun _ _ => { documentCode := none, documentType := none, amendmentNumber := none, amendsDocument := none })
      (fun s => s)
      (fun ts => Except.ok (ts.map (fun _ => []), ts.map (fun _ => [])))
      (fun _ => Except.ok ()) 2000 100 200) "doc.pdf".toList) = "success".toList ∧
    "success".toList ≠ "skipped".toList := by
  constructor
  · decide
  · decide

/-- C6 (amended): when the parsed text produces zero chunks (here:
whitespace-only text), the Chunk stage returns `None` so the Embed, Store
and Verify stages do not run — the pipeline result does not depend on the
embedder or the vector store at all and `chunks_indexed` is never recorded —
and the file's status in the ingestion report is `"success"` (in particular
not `"failed"`): no error is recorded, and `add_result` only produces
`"skipped"` when `context.metadata` is empty, which the Metadata stage has
made impossible. -/
theorem C6_zero_chunk_short_circuit
    (parse : Str → Except Str DocData) (extract : Str → Str → MetaOut)
    (normalize : Str → Str)
    (encode : List Str → Except Str (List (List ℚ) × List (List (Nat × ℚ))))
    (insert : List Chunk → Except Str Unit)
    (maxChars minChars overlap : Nat) (file : Str) (dd : DocData)
    (hp : parse file = Except.ok dd) (hw : pyStrip dd.text = []) :
    (∀ encode2 insert2,
      runPipeline (assembledStages parse extract normalize encode2 insert2
        maxChars minChars overlap) file =
      runPipeline (assembledStages parse extract normalize encode insert
        maxChars minChars overlap) file) ∧
    (runPipeline (assembledStages parse extract normalize encode insert
      maxChars minChars overlap) file).errors = [] ∧
    dictGet (runPipeline (assembledStages parse extract normalize encode insert
      maxChars minChars overlap) file).stats "chunks_indexed".toList = none ∧
    reportStatus (runPipeline (assembledStages parse extract normalize encode
      insert maxChars minChars overlap) file) = "success".toList := by
  have hres : ∀ (enc : List Str → Except Str (List (List ℚ) × List (List (Nat × ℚ))))
      (ins : List Chunk → Except Str Unit),
      runPipeline (assembledStages parse extract normalize enc ins
        maxChars minChars overlap) file =
        { filePath := file
          metadata := upsert (upsert (upsert (upsert (upsert []
              "document_code".toList (extract dd.text (pyBasename file)).documentCode)
              "document_type".toList (extract dd.text (pyBasename file)).documentType)
              "amendment_number".toList (extract dd.text (pyBasename file)).amendmentNumber)
              "amends_document".toList (extract dd.text (pyBasename file)).amendsDocument)
              "document_id".toList (some (generateDocumentId normalize file
                (extract dd.text (pyBasename file)).documentCode))
          stats := upsert (upsert [] "pages".toList (StatVal.nat dd.totalPages))
            "total_chars".toList (StatVal.nat dd.totalChars)
          errors := [] } := by
    intro enc ins
    simp [runPipeline, assembledStages, runStages, loadStage, hp,
      metadataStage, chunkStage, structuralSplit, hw]
  refine ⟨fun e2 i2 => by rw [hres, hres], ?_, ?_, ?_⟩
  · rw [hres]
  · rw [hres]
    show dictGet (upsert (upsert [] "pages".toList (StatVal.nat dd.totalPages))
      "total_chars".toList (StatVal.nat dd.totalChars)) "chunks_indexed".toList = none
    rw [dictGet_upsert_ne _ _ _ _ (by decide),
      dictGet_upsert_ne _ _ _ _ (by decide)]
    rfl
  · rw [hres]
    refine reportStatus_success _ rfl ?_
    exact upsert_ne_nil (upsert (upsert (upsert (upsert []
      "document_code".toList (extract dd.text (pyBasename file)).documentCode)
      "document_type".toList (extract dd.text (pyBasename file)).documentType)
      "amendment_number".toList (extract dd.text (pyBasename file)).amendmentNumber)
      "amends_document".toList (extract dd.text (pyBasename file)).amendsDocument)
      "document_id".toList (some (generateDocumentId normalize file
        (extract dd.text (pyBasename file)).documentCode))

/-- C6 witness: the amended theorem applied to the concrete whitespace-only
file of the counterexample. -/
theorem C6_zero_chunk_short_circuit_witness :
    reportStatus (runPipeline (assembledStages
      (fun _ => Except.ok { text := "   ".toList, pages := [], totalPages := 1, totalChars := 3 })
      (fun _ _ => { documentCode := none, documentType := none, amendmentNumber := none, amendsDocument := none })
      (fun s => s)
      (fun ts => Except.ok (ts.map (fun _ => []), ts.map (fun _ => [])))
      (fun _ => Except.ok ()) 2000 100 200) "doc.pdf".toList) = "success".toList :=
  (C6_zero_chunk_short_circuit _ _ _ _ _ 2000 100 200 "doc.pdf".toList
    { text := "   ".toList, pages := [], totalPages := 1, totalChars := 3 }
    rfl (by decide)).2.2.2

lemma zipAttach_length (cs : List Chunk) :
    ∀ ds ss, (zipAttach cs ds ss).length = cs.length := by
  induction cs with
  | nil => intro ds ss; cases ds <;> cases ss <;> rfl
  | cons c cs ih =>
    intro ds ss
    cases ds with
    | nil => rfl
    | cons d ds =>
      cases ss with
      | nil => rfl
      | cons s ss => simp [zipAttach, ih]

lemma attachDocCode_length (md : List (Str × Option Str)) (cs : List Chunk) :
    (attachDocCode md cs).length = cs.length := by
  unfold attachDocCode
  cases dictGet md "document_code".toList with
  | none => rfl
  | some mc =>
    cases mc with
    | none => rfl
    | some code => by_cases hcode : code ≠ [] <;> simp [hcode]

lemma tail_run_stats (encode : List Str → Except Str (List (List ℚ) × List (List (Nat × ℚ))))
    (insert : List Chunk → Except Str Unit) (ctx : Ctx) (cs : List Chunk) (n : Nat)
    (hctx : dictGet ctx.stats "chunks_indexed".toList = none)
    (hn : dictGet (runStages [embedStage encode, storeStage insert, verifyStage]
      ctx (Payload.chunks cs)).stats "chunks_indexed".toList = some (StatVal.nat n)) :
    n = cs.length := by
  cases henc : encode (cs.map Chunk.text) with
  | error e =>
    simp only [runStages, embedStage, henc] at hn
    rw [hctx] at hn
    exact absurd hn (by simp)
  | ok ds =>
    cases hins : insert (zipAttach cs ds.1 ds.2) with
    | error e =>
      simp only [runStages, embedStage, henc, storeStage, hins] at hn
      rw [hctx] at hn
      exact absurd hn (by simp)
    | ok u =>
      simp only [runStages, embedStage, henc, storeStage, hins, verifyStage] at hn
      rw [dictGet_upsert_self] at hn
      have hz := zipAttach_length cs ds.1 ds.2
      injection hn with hn1
      injection hn1 with hn2
      omega

lemma tail_run_errors (encode : List Str → Except Str (List (List ℚ) × List (List (Nat × ℚ))))
    (insert : List Chunk → Except Str Unit) (ctx : Ctx) (cs : List Chunk)
    (hcs : cs ≠ [])
    (he : ∀ ts e, encode ts = Except.error e → e ≠ verifyErrMsg)
    (hi : ∀ cs2 e, insert cs2 = Except.error e → e ≠ verifyErrMsg)
    (hctx : verifyErrMsg ∉ ctx.errors) :
    verifyErrMsg ∉ (runStages [embedStage encode, storeStage insert, verifyStage]
      ctx (Payload.chunks cs)).errors := by
  cases henc : encode (cs.map Chunk.text) with
  | error e =>
    simp only [runStages, embedStage, henc]
    intro hmem
    rcases List.mem_append.mp hmem with h1 | h1
    · exact hctx h1
    · exact he _ _ henc (List.mem_singleton.mp h1).symm
  | ok ds =>
    cases hins : insert (zipAttach cs ds.1 ds.2) with
    | error e =>
      simp only [runStages, embedStage, henc, storeStage, hins]
      intro hmem
      rcases List.mem_append.mp hmem with h1 | h1
      · exact hctx h1
      · exact hi _ _ hins (List.mem_singleton.mp h1).symm
    | ok u =>
      simp only [runStages, embedStage, henc, storeStage, hins, verifyStage]
      have hlen : ¬ (zipAttach cs ds.1 ds.2).length = 0 := by
        rw [zipAttach_length]
        simpa using hcs
      rw [if_neg hlen]
      exact hctx

lemma chunk_tail_cases (maxChars minChars overlap : Nat)
    (encode : List Str → Except Str (List (List ℚ) × List (List (Nat × ℚ))))
    (insert : List Chunk → Except Str Unit) (ctx2 : Ctx) (dd : DocData)
    (herr : ctx2.errors = [])
    (hst : dictGet ctx2.stats "chunks_indexed".toList = none) :
    (∃ ctx2b : Ctx, ctx2b.errors = [] ∧
      dictGet ctx2b.stats "chunks_indexed".toList = none ∧
      runStages [chunkStage maxChars minChars overlap, embedStage encode,
        storeStage insert, verifyStage] ctx2 (Payload.doc dd) = ctx2b) ∨
    (∃ (ctx3 : Ctx) (cs : List Chunk), cs ≠ [] ∧ ctx3.errors = [] ∧
      dictGet ctx3.stats "chunks_indexed".toList = none ∧
      runStages [chunkStage maxChars minChars overlap, embedStage encode,
        storeStage insert, verifyStage] ctx2 (Payload.doc dd) =
        runStages [embedStage encode, storeStage insert, verifyStage] ctx3
          (Payload.chunks cs)) := by
  cases hcs : structuralSplit maxChars minChars overlap dd.text
      (chunkDocId ctx2.metadata) (pyBasename ctx2.filePath) with
  | nil =>
    refine Or.inl ⟨ctx2, herr, hst, ?_⟩
    simp [runStages, chunkStage, hcs]
  | cons c cs' =>
    refine Or.inr ⟨{ ctx2 with stats := upsert ctx2.stats "chunks_created".toList (StatVal.nat (attachDocCode ctx2.metadata (c :: cs')).length) }, attachDocCode ctx2.metadata (c :: cs'), ?_, herr, ?_, ?_⟩
    · intro hz
      have := attachDocCode_length ctx2.metadata (c :: cs')
      rw [hz] at this
      simp at this
    · show dictGet (upsert ctx2.stats "chunks_created".toList
        (StatVal.nat (attachDocCode ctx2.metadata (c :: cs')).length))
        "chunks_indexed".toList = none
      rw [dictGet_upsert_ne _ _ _ _ (by decide)]
      exact hst
    · simp only [runStages, chunkStage, hcs]
      rw [if_neg (List.cons_ne_nil c cs')]


lemma assembled_run_cases (parse : Str → Except Str DocData)
    (extract : Str → Str → MetaOut) (normalize : Str → Str)
    (encode : List Str → Except Str (List (List ℚ) × List (List (Nat × ℚ))))
    (insert : List Chunk → Except Str Unit)
    (maxChars minChars overlap : Nat) (file : Str) :
    (∃ e, parse file = Except.error e ∧
      runPipeline (assembledStages parse extract normalize encode insert
        maxChars minChars overlap) file = { filePath := file, errors := [e] }) ∨
    (∃ ctx2 : Ctx, ctx2.errors = [] ∧
      dictGet ctx2.stats "chunks_indexed".toList = none ∧
      runPipeline (assembledStages parse extract normalize encode insert
        maxChars minChars overlap) file = ctx2) ∨
    (∃ (ctx3 : Ctx) (cs : List Chunk), cs ≠ [] ∧ ctx3.errors = [] ∧
      dictGet ctx3.stats "chunks_indexed".toList = none ∧
      runPipeline (assembledStages parse extract normalize encode insert
        maxChars minChars overlap) file =
        runStages [embedStage encode, storeStage insert, verifyStage] ctx3
          (Payload.chunks cs)) := by
  cases hp : parse file with
  | error e =>
    refine Or.inl ⟨e, rfl, ?_⟩
    simp [runPipeline, assembledStages, runStages, loadStage, hp]
  | ok dd =>
    have hrun : runPipeline (assembledStages parse extract normalize encode insert
        maxChars minChars overlap) file =
        runStages [chunkStage maxChars minChars overlap, embedStage encode,
          storeStage insert, verifyStage]
          { filePath := file
            metadata := upsert (upsert (upsert (upsert (upsert []
                "document_code".toList (extract dd.text (pyBasename file)).documentCode)
                "document_type".toList (extract dd.text (pyBasename file)).documentType)
                "amendment_number".toList (extract dd.text (pyBasename file)).amendmentNumber)
                "amends_document".toList (extract dd.text (pyBasename file)).amendsDocument)
                "document_id".toList (some (generateDocumentId normalize file
                  (extract dd.text (pyBasename file)).documentCode))
            stats := upsert (upsert [] "pages".toList (StatVal.nat dd.totalPages))
              "total_chars".toList (StatVal.nat dd.totalChars)
            errors := [] } (Payload.doc dd) := by
      simp [runPipeline, assembledStages, runStages, loadStage, hp, metadataStage]
    have hcases := chunk_tail_cases maxChars minChars overlap encode insert
      { filePath := file
        metadata := upsert (upsert (upsert (upsert (upsert []
            "document_code".toList (extract dd.text (pyBasename file)).documentCode)
            "document_type".toList (extract dd.text (pyBasename file)).documentType)
            "amendment_number".toList (extract dd.text (pyBasename file)).amendmentNumber)
            "amends_document".toList (extract dd.text (pyBasename file)).amendsDocument)
            "document_id".toList (some (generateDocumentId normalize file
              (extract dd.text (pyBasename file)).documentCode))
        stats := upsert (upsert [] "pages".toList (StatVal.nat dd.totalPages))
          "total_chars".toList (StatVal.nat dd.totalChars)
        errors := [] } dd rfl
      (by
        show dictGet (upsert (upsert [] "pages".toList (StatVal.nat dd.totalPages))
          "total_chars".toList (StatVal.nat dd.totalChars)) "chunks_indexed".toList = none
        rw [dictGet_upsert_ne _ _ _ _ (by decide),
          dictGet_upsert_ne _ _ _ _ (by decide)]
        rfl)
    rcases hcases with ⟨ctx2b, h1, h2, h3⟩ | ⟨ctx3, cs, h1, h2, h3, h4⟩
    · exact Or.inr (Or.inl ⟨ctx2b, h1, h2, by rw [hrun, h3]⟩)
    · exact Or.inr (Or.inr ⟨ctx3, cs, h1, h2, h3, by rw [hrun, h4]⟩)

/-- C10: in the assembled six-stage pipeline, `VerifyStage` never runs on an
empty chunk list: whenever the run's stats record a `chunks_indexed` count
(which only `VerifyStage` writes), that count is at least 1, because a
zero-chunk split makes `ChunkStage` return `None` before Embed/Store/Verify,
and `EmbedStage`/`VectorStoreStage` preserve the chunk list's length.
Consequently the `"Verification Failed: 0 chunks were indexed"` message is
never appended by `VerifyStage`: it can only appear in `context.errors` if
an external component raises that exact text. -/
theorem C10_verify_never_runs_empty (parse : Str → Except Str DocData)
    (extract : Str → Str → MetaOut) (normalize : Str → Str)
    (encode : List Str → Except Str (List (List ℚ) × List (List (Nat × ℚ))))
    (insert : List Chunk → Except Str Unit)
    (maxChars minChars overlap : Nat) (file : Str) :
    (∀ n, dictGet (runPipeline (assembledStages parse extract normalize encode
        insert maxChars minChars overlap) file).stats "chunks_indexed".toList =
        some (StatVal.nat n) → 1 ≤ n) ∧
    ((∀ e, parse file = Except.error e → e ≠ verifyErrMsg) →
     (∀ ts e, encode ts = Except.error e → e ≠ verifyErrMsg) →
     (∀ cs e, insert cs = Except.error e → e ≠ verifyErrMsg) →
     verifyErrMsg ∉ (runPipeline (assembledStages parse extract normalize encode
        insert maxChars minChars overlap) file).errors) := by
  rcases assembled_run_cases parse extract normalize encode insert
    maxChars minChars overlap file with
    ⟨e, hpe, hrun⟩ | ⟨ctx2, herr, hst, hrun⟩ | ⟨ctx3, cs, hcs, herr, hst, hrun⟩
  · constructor
    · intro n hn
      rw [hrun] at hn
      exact absurd hn (by simp [dictGet])
    · intro h1 _ _
      rw [hrun]
      intro hmem
      simp only [List.mem_singleton] at hmem
      exact h1 e hpe hmem.symm
  · constructor
    · intro n hn
      rw [hrun, hst] at hn
      exact absurd hn (by simp)
    · intro _ _ _
      rw [hrun, herr]
      simp
  · constructor
    · intro n hn
      rw [hrun] at hn
      have hts := tail_run_stats encode insert ctx3 cs n hst hn
      have hlen : 1 ≤ cs.length := by
        cases cs with
        | nil => exact absurd rfl hcs
        | cons a l => simp
      omega
    · intro _ he hi
      rw [hrun]
      exact tail_run_errors encode insert ctx3 cs hcs he hi (by rw [herr]; simp)

/-- C10 witness: a run in which everything succeeds records
`chunks_indexed = 1`, so the theorem yields `1 ≤ 1`, and the verify error
message is absent from the run's errors. -/
theorem C10_verify_never_runs_empty_witness :
    (1 : Nat) ≤ 1 ∧
    verifyErrMsg ∉ (runPipeline (assembledStages
      (fun _ => Except.ok { text := "Điều 1. Phạm vi.".toList, pages := [], totalPages := 1, totalChars := 16 })
      (fun _ _ => { documentCode := none, documentType := none, amendmentNumber := none, amendsDocument := none })
      (fun s => s)
      (fun ts => Except.ok (ts.map (fun _ => []), ts.map (fun _ => [])))
      (fun _ => Except.ok ()) 2000 100 200) "doc.pdf".toList).errors := by
  refine ⟨?_, ?_⟩
  · exact (C10_verify_never_runs_empty
      (fun _ => Except.ok { text := "Điều 1. Phạm vi.".toList, pages := [], totalPages := 1, totalChars := 16 })
      (fun _ _ => { documentCode := none, documentType := none, amendmentNumber := none, amendsDocument := none })
      (fun s => s)
      (fun ts => Except.ok (ts.map (fun _ => []), ts.map (fun _ => [])))
      (fun _ => Except.ok ()) 2000 100 200 "doc.pdf".toList).1 1 (by decide)
  · exact (C10_verify_never_runs_empty
      (fun _ => Except.ok { text := "Điều 1. Phạm vi.".toList, pages := [], totalPages := 1, totalChars := 16 })
      (fun _ _ => { documentCode := none, documentType := none, amendmentNumber := none, amendsDocument := none })
      (fun s => s)
      (fun ts => Except.ok (ts.map (fun _ => []), ts.map (fun _ => [])))
      (fun _ => Except.ok ()) 2000 100 200 "doc.pdf".toList).2
      (fun e hpe => absurd hpe (by simp))
      (fun ts e henc => absurd henc (by simp))
      (fun cs e hins => absurd hins (by simp))

lemma dictGet_map_addfn (s : List (Str × ℚ)) (k id : Str) (v : ℚ) :
    dictGet (s.map (fun kv => if kv.1 = k then (kv.1, kv.2 + v) else kv)) id =
      if id = k then (dictGet s k).map (· + v) else dictGet s id := by
  induction s with
  | nil => by_cases hik : id = k <;> simp [dictGet, hik]
  | cons kv rest ih =>
    obtain ⟨a, b⟩ := kv
    by_cases hak : a = k
    · subst hak
      by_cases hik : id = a
      · subst hik
        simp [dictGet, ih]
      · simp [dictGet, hik, ih]
    · by_cases hik : id = a
      · subst hik
        simp [dictGet, hak]
      · simp [dictGet, hak, hik, ih, show ¬ k = a from fun hc => hak hc.symm]

lemma scoreOf_addScore (s : List (Str × ℚ)) (k id : Str) (v : ℚ) :
    scoreOf (addScore s k v) id = scoreOf s id + (if k = id then v else 0) := by
  unfold addScore
  by_cases hp : (dictGet s k).isSome
  · rw [if_pos hp]
    unfold scoreOf
    rw [dictGet_map_addfn]
    by_cases hik : id = k
    · subst hik
      rw [if_pos rfl, if_pos rfl]
      obtain ⟨b, hb⟩ := Option.isSome_iff_exists.mp hp
      simp [hb]
    · rw [if_neg hik, if_neg (fun hc => hik hc.symm)]
      simp
  · rw [if_neg hp]
    unfold scoreOf
    rw [dictGet_append_single]
    by_cases hik : id = k
    · subst hik
      rw [Option.not_isSome_iff_eq_none] at hp
      simp [hp]
    · have hki : ¬ k = id := fun hc => hik hc.symm
      cases hdl : dictGet s id with
      | none => simp [hdl, hik, hki]
      | some b => simp [hdl, hki]

lemma contribFrom_not_mem (hits : List Hit) (id : Str) :
    ∀ rank, id ∉ hits.map Hit.id → contribFrom rank hits id = 0 := by
  induction hits with
  | nil => intro rank _; rfl
  | cons h rest ih =>
    intro rank hmem
    simp only [List.map_cons, List.mem_cons] at hmem
    push_neg at hmem
    unfold contribFrom
    rw [if_neg (fun hc => hmem.1 hc.symm), ih _ hmem.2]
    simp

lemma contribFrom_nodup (hits : List Hit) (id : Str)
    (hnd : (hits.map Hit.id).Nodup) :
    ∀ rank, contribFrom rank hits id =
      match idxOf? id hits with
      | some i => rrfTerm (rank + i)
      | none => 0 := by
  induction hits with
  | nil => intro rank; rfl
  | cons h rest ih =>
    intro rank
    rw [List.map_cons, List.nodup_cons] at hnd
    unfold contribFrom idxOf?
    by_cases hh : h.id = id
    · rw [if_pos hh, if_pos hh]
      have hmem : id ∉ rest.map Hit.id := by rw [← hh]; exact hnd.1
      rw [contribFrom_not_mem rest id _ hmem]
      simp
    · rw [if_neg hh, if_neg hh, ih hnd.2 (rank + 1)]
      cases hidx : idxOf? id rest with
      | none => simp
      | some i =>
        simp only [Option.map_some', zero_add]
        have harg : rank + 1 + i = rank + (i + 1) := by omega
        rw [harg]

lemma contribFrom_zero_eq (hits : List Hit) (id : Str)
    (hnd : (hits.map Hit.id).Nodup) :
    contribFrom 0 hits id = rrfContrib hits id := by
  rw [contribFrom_nodup hits id hnd 0]
  unfold rrfContrib
  cases idxOf? id hits <;> simp

lemma scoreOf_processHitsGo (hits : List Hit) :
    ∀ (rank : Nat) (st : List (Str × ℚ) × List (Str × Chunk)) (id : Str),
      scoreOf (processHitsGo rank hits st).1 id =
        scoreOf st.1 id + contribFrom rank hits id := by
  induction hits with
  | nil => intro rank st id; simp [processHitsGo, contribFrom]
  | cons h rest ih =>
    intro rank st id
    obtain ⟨s, m⟩ := st
    show scoreOf (processHitsGo (rank + 1) rest
      (addScore s h.id (rrfTerm rank), addChunk m h)).1 id = _
    rw [ih (rank + 1) _ id]
    show scoreOf (addScore s h.id (rrfTerm rank)) id + _ = _
    rw [scoreOf_addScore]
    show scoreOf s id + (if h.id = id then rrfTerm rank else 0) +
        contribFrom (rank + 1) rest id =
      scoreOf s id + ((if h.id = id then rrfTerm rank else 0) +
        contribFrom (rank + 1) rest id)
    ring

lemma dictGet_addChunk (m : List (Str × Chunk)) (h : Hit) (id : Str) :
    dictGet (addChunk m h) id =
      match dictGet m id with
      | some c => some c
      | none => if h.id = id then some (chunkOfHit h) else none := by
  unfold addChunk
  by_cases hp : (dictGet m h.id).isSome
  · rw [if_pos hp]
    cases hdl : dictGet m id with
    | some c => simp [hdl]
    | none =>
      by_cases hh : h.id = id
      · subst hh
        rw [hdl] at hp
        simp at hp
      · simp [hdl, hh]
  · rw [if_neg hp, dictGet_append_single]
    cases hdl : dictGet m id with
    | some c => simp
    | none =>
      by_cases hh : h.id = id
      · rw [if_pos hh.symm]
        simp [hh]
      · rw [if_neg (fun hc => hh hc.symm)]
        simp [hh]

lemma dictGet_cmap_processHitsGo (hits : List Hit) :
    ∀ (rank : Nat) (st : List (Str × ℚ) × List (Str × Chunk)) (id : Str),
      dictGet (processHitsGo rank hits st).2 id =
        match dictGet st.2 id with
        | some c => some c
        | none => (firstHit id hits).map chunkOfHit := by
  induction hits with
  | nil =>
    intro rank st id
    cases hdl : dictGet st.2 id <;> simp [processHitsGo, firstHit, hdl]
  | cons h rest ih =>
    intro rank st id
    obtain ⟨s, m⟩ := st
    show dictGet (processHitsGo (rank + 1) rest
      (addScore s h.id (rrfTerm rank), addChunk m h)).2 id = _
    rw [ih (rank + 1) _ id]
    show (match dictGet (addChunk m h) id with
      | some c => some c
      | none => (firstHit id rest).map chunkOfHit) = _
    rw [dictGet_addChunk]
    cases hdl : dictGet m id with
    | some c => simp [hdl]
    | none =>
      by_cases hh : h.id = id
      · simp [hdl, hh, firstHit]
      · simp [hdl, hh, firstHit]

lemma firstHit_append (id : Str) (a b : List Hit) :
    firstHit id (a ++ b) =
      match firstHit id a with
      | some h => some h
      | none => firstHit id b := by
  induction a with
  | nil => simp [firstHit]
  | cons h rest ih =>
    by_cases hh : h.id = id
    · simp [firstHit, hh]
    · simp [firstHit, hh, ih]

lemma firstHit_id (id : Str) (hits : List Hit) (h : Hit)
    (hfh : firstHit id hits = some h) : h.id = id := by
  induction hits with
  | nil => exact absurd hfh (by simp [firstHit])
  | cons h0 rest ih =>
    unfold firstHit at hfh
    by_cases hh : h0.id = id
    · rw [if_pos hh] at hfh
      injection hfh with hfh
      rw [← hfh]
      exact hh
    · rw [if_neg hh] at hfh
      exact ih hfh

lemma firstHit_isSome_iff (id : Str) (hits : List Hit) :
    (firstHit id hits).isSome ↔ id ∈ hits.map Hit.id := by
  induction hits with
  | nil => simp [firstHit]
  | cons h rest ih =>
    unfold firstHit
    by_cases hh : h.id = id
    · simp [hh]
    · simp only [if_neg hh, List.map_cons, List.mem_cons, ih]
      constructor
      · intro hm; exact Or.inr hm
      · rintro (hm | hm)
        · exact absurd hm.symm hh
        · exact hm

lemma fuse_scores_char (dense sparse : List Hit) (id : Str) :
    scoreOf (processHits sparse (processHits dense ([], []))).1 id =
      contribFrom 0 dense id + contribFrom 0 sparse id := by
  unfold processHits
  rw [scoreOf_processHitsGo, scoreOf_processHitsGo]
  show scoreOf [] id + _ + _ = _
  have h0 : scoreOf ([] : List (Str × ℚ)) id = 0 := rfl
  rw [h0]
  ring

lemma fuse_cmap_char (dense sparse : List Hit) (id : Str) :
    dictGet (processHits sparse (processHits dense ([], []))).2 id =
      (firstHit id (dense ++ sparse)).map chunkOfHit := by
  unfold processHits
  rw [dictGet_cmap_processHitsGo, dictGet_cmap_processHitsGo, firstHit_append]
  show (match (match dictGet ([] : List (Str × Chunk)) id with
    | some c => some c
    | none => (firstHit id dense).map chunkOfHit) with
    | some c => some c
    | none => (firstHit id sparse).map chunkOfHit) = _
  cases hfd : firstHit id dense <;> simp [dictGet, hfd]

lemma dictGet_none_iff {α : Type} (m : List (Str × α)) (k : Str) :
    dictGet m k = none ↔ k ∉ m.map Prod.fst := by
  induction m with
  | nil => simp [dictGet]
  | cons kv rest ih =>
    obtain ⟨a, b⟩ := kv
    by_cases hk : k = a
    · subst hk
      simp only [dictGet, if_pos rfl, List.map_cons]
      constructor
      · intro hc
        exact Option.noConfusion hc
      · intro hc
        exact absurd (List.mem_cons_self _ _) hc
    · rw [List.map_cons, List.mem_cons]
      simp only [dictGet, if_neg hk, ih]
      constructor
      · intro hn hmem
        rcases hmem with h1 | h1
        · exact hk h1
        · exact hn h1
      · intro hn hmem
        exact hn (Or.inr hmem)

lemma dictGet_isSome_of_mem_keys {α : Type} (m : List (Str × α)) (k : Str)
    (h : k ∈ m.map Prod.fst) : (dictGet m k).isSome := by
  cases hdl : dictGet m k with
  | none => exact absurd h (by rw [← dictGet_none_iff]; exact hdl)
  | some v => simp

lemma dictGet_addScore_isSome (s : List (Str × ℚ)) (k id : Str) (v : ℚ) :
    (dictGet (addScore s k v) id).isSome ↔ (dictGet s id).isSome ∨ id = k := by
  unfold addScore
  by_cases hp : (dictGet s k).isSome
  · rw [if_pos hp, dictGet_map_addfn]
    by_cases hik : id = k
    · subst hik
      simp [hp]
    · simp [hik]
  · rw [if_neg hp, dictGet_append_single]
    cases hdl : dictGet s id with
    | some b => simp
    | none =>
      by_cases hik : id = k
      · simp [hik]
      · simp [hik]

lemma scores_isSome_processHitsGo (hits : List Hit) :
    ∀ (rank : Nat) (st : List (Str × ℚ) × List (Str × Chunk)) (id : Str),
      (dictGet (processHitsGo rank hits st).1 id).isSome ↔
        (dictGet st.1 id).isSome ∨ id ∈ hits.map Hit.id := by
  induction hits with
  | nil => intro rank st id; simp [processHitsGo]
  | cons h rest ih =>
    intro rank st id
    obtain ⟨s, m⟩ := st
    show (dictGet (processHitsGo (rank + 1) rest
      (addScore s h.id (rrfTerm rank), addChunk m h)).1 id).isSome ↔ _
    rw [ih (rank + 1) _ id]
    show (dictGet (addScore s h.id (rrfTerm rank)) id).isSome ∨ _ ↔ _
    rw [dictGet_addScore_isSome]
    simp only [List.map_cons, List.mem_cons]
    constructor
    · rintro ((h1 | h1) | h1)
      · exact Or.inl h1
      · exact Or.inr (Or.inl h1)
      · exact Or.inr (Or.inr h1)
    · rintro (h1 | h1 | h1)
      · exact Or.inl (Or.inl h1)
      · exact Or.inl (Or.inr h1)
      · exact Or.inr h1

lemma keys_addScore (s : List (Str × ℚ)) (k : Str) (v : ℚ) :
    (addScore s k v).map Prod.fst =
      if (dictGet s k).isSome then s.map Prod.fst else s.map Prod.fst ++ [k] := by
  unfold addScore
  by_cases hp : (dictGet s k).isSome
  · rw [if_pos hp, if_pos hp, List.map_map]
    congr 1
    funext kv
    by_cases hk : kv.1 = k <;> simp [hk]
  · rw [if_neg hp, if_neg hp]
    simp

lemma keys_nodup_processHitsGo (hits : List Hit) :
    ∀ (rank : Nat) (st : List (Str × ℚ) × List (Str × Chunk)),
      (st.1.map Prod.fst).Nodup →
      ((processHitsGo rank hits st).1.map Prod.fst).Nodup := by
  induction hits with
  | nil => intro rank st h; exact h
  | cons h rest ih =>
    intro rank st hnd
    obtain ⟨s, m⟩ := st
    show ((processHitsGo (rank + 1) rest
      (addScore s h.id (rrfTerm rank), addChunk m h)).1.map Prod.fst).Nodup
    refine ih (rank + 1) _ ?_
    show ((addScore s h.id (rrfTerm rank)).map Prod.fst).Nodup
    rw [keys_addScore]
    by_cases hp : (dictGet s h.id).isSome
    · rw [if_pos hp]; exact hnd
    · rw [if_neg hp, List.nodup_append]
      refine ⟨hnd, List.nodup_singleton _, ?_⟩
      intro a ha hb
      rw [List.mem_singleton] at hb
      subst hb
      rw [Option.not_isSome_iff_eq_none, dictGet_none_iff] at hp
      exact hp ha

lemma snd_mem_of_mem_enumFrom {α : Type} (l : List α) :
    ∀ (n : Nat) (p : Nat × α), p ∈ l.enumFrom n → p.2 ∈ l := by
  induction l with
  | nil => intro n p hp; simp [List.enumFrom] at hp
  | cons a t ih =>
    intro n p hp
    rw [List.enumFrom] at hp
    rcases List.mem_cons.mp hp with h1 | h1
    · subst h1; simp
    · exact List.mem_cons_of_mem _ (ih (n + 1) p h1)

lemma pairwise_map_enumFrom {α β : Type} (R : α → α → Prop) (S : β → β → Prop)
    (f : Nat × α → β)
    (hf : ∀ i a j b, R a b → S (f (i, a)) (f (j, b))) :
    ∀ (l : List α) (n : Nat), l.Pairwise R → ((l.enumFrom n).map f).Pairwise S := by
  intro l
  induction l with
  | nil => intro n _; simp [List.enumFrom]
  | cons a t ih =>
    intro n hp
    rw [List.pairwise_cons] at hp
    rw [List.enumFrom, List.map_cons, List.pairwise_cons]
    constructor
    · intro y hy
      obtain ⟨p, hpmem, rfl⟩ := List.mem_map.mp hy
      have hmem := snd_mem_of_mem_enumFrom t (n + 1) p hpmem
      have := hf n a p.1 p.2 (hp.1 p.2 hmem)
      simpa using this
    · exact ih (n + 1) hp.2

lemma map_comp_enumFrom_mem {α β : Type} (f : Nat × α → β) (g : β → α) :
    ∀ (l : List α) (n : Nat), (∀ i a, a ∈ l → g (f (i, a)) = a) →
      ((l.enumFrom n).map f).map g = l := by
  intro l
  induction l with
  | nil => intro n _; simp [List.enumFrom]
  | cons a t ih =>
    intro n h
    rw [List.enumFrom, List.map_cons, List.map_cons, h n a (by simp),
      ih (n + 1) (fun i x hx => h i x (List.mem_cons_of_mem _ hx))]

/-- The post-search body of `MilvusStore.search` written out: sort the score
keys descending, truncate to `top_k`, build 1-based-ranked results. -/
lemma milvusFuse_eq (denseHits sparseHits : List Hit) (topK : Nat) :
    milvusFuse denseHits sparseHits topK =
      (((((processHits sparseHits (processHits denseHits ([], []))).1.map
          Prod.fst).insertionSort
            (scoreGE (processHits sparseHits (processHits denseHits ([], []))).1)).take
        topK).enumFrom 0).map
        (fun p =>
          { chunk := (dictGet (processHits sparseHits (processHits denseHits ([], []))).2 p.2).getD default
            score := scoreOf (processHits sparseHits (processHits denseHits ([], []))).1 p.2
            rank := p.1 + 1 }) := rfl

lemma fuse_chunk_of_key (dense sparse : List Hit) (uid : Str)
    (hmem : uid ∈ (processHits sparse (processHits dense ([], []))).1.map Prod.fst) :
    ∃ h, firstHit uid (dense ++ sparse) = some h ∧
      (dictGet (processHits sparse (processHits dense ([], []))).2 uid).getD default
        = chunkOfHit h ∧ h.id = uid := by
  have h1 : (dictGet (processHits sparse (processHits dense ([], []))).1 uid).isSome :=
    dictGet_isSome_of_mem_keys _ _ hmem
  rw [show (processHits sparse (processHits dense ([], []))).1 =
    (processHitsGo 0 sparse (processHitsGo 0 dense ([], []))).1 from rfl] at h1
  rw [scores_isSome_processHitsGo, scores_isSome_processHitsGo] at h1
  have h2 : uid ∈ (dense ++ sparse).map Hit.id := by
    rw [List.map_append, List.mem_append]
    rcases h1 with (h1 | h1) | h1
    · exact absurd h1 (by simp [dictGet])
    · exact Or.inl h1
    · exact Or.inr h1
  obtain ⟨h, hh⟩ := Option.isSome_iff_exists.mp
    ((firstHit_isSome_iff uid (dense ++ sparse)).mpr h2)
  refine ⟨h, hh, ?_, firstHit_id _ _ _ hh⟩
  rw [fuse_cmap_char, hh]
  rfl

lemma milvusFuse_mem (dense sparse : List Hit) (topK : Nat)
    (hd : (dense.map Hit.id).Nodup) (hs : (sparse.map Hit.id).Nodup) :
    ∀ r ∈ milvusFuse dense sparse topK,
      r.score = rrfContrib dense r.chunk.id + rrfContrib sparse r.chunk.id ∧
      ∃ h, firstHit r.chunk.id (dense ++ sparse) = some h ∧
        r.chunk = chunkOfHit h := by
  intro r hr
  rw [milvusFuse_eq] at hr
  obtain ⟨p, hp, hfr⟩ := List.mem_map.mp hr
  have huid := List.mem_of_mem_take (snd_mem_of_mem_enumFrom _ 0 p hp)
  have hmem := (List.perm_insertionSort _ _).mem_iff.mp huid
  obtain ⟨h, hfh, hcval, hid⟩ := fuse_chunk_of_key dense sparse p.2 hmem
  have hrchunk : r.chunk = chunkOfHit h := by rw [← hfr]; exact hcval
  have hrid : r.chunk.id = p.2 := by
    rw [hrchunk, show (chunkOfHit h).id = h.id from rfl, hid]
  constructor
  · have hscore : r.score =
        scoreOf (processHits sparse (processHits dense ([], []))).1 p.2 := by
      rw [← hfr]
    rw [hscore, hrid, fuse_scores_char, contribFrom_zero_eq dense _ hd,
      contribFrom_zero_eq sparse _ hs]
  · exact ⟨h, by rw [hrid]; exact hfh, hrchunk⟩

lemma milvusFuse_ids (dense sparse : List Hit) (topK : Nat) :
    (milvusFuse dense sparse topK).map (fun r => r.chunk.id) =
      (((processHits sparse (processHits dense ([], []))).1.map
        Prod.fst).insertionSort
          (scoreGE (processHits sparse (processHits dense ([], []))).1)).take topK := by
  rw [milvusFuse_eq]
  refine map_comp_enumFrom_mem _ _ _ 0 ?_
  intro i a ha
  have hmem := (List.perm_insertionSort _ _).mem_iff.mp (List.mem_of_mem_take ha)
  obtain ⟨h, _, hcval, hid⟩ := fuse_chunk_of_key dense sparse a hmem
  show ((dictGet (processHits sparse (processHits dense ([], []))).2 a).getD
    default).id = a
  rw [hcval, show (chunkOfHit h).id = h.id from rfl, hid]

lemma milvusFuse_nodup (dense sparse : List Hit) (topK : Nat) :
    ((milvusFuse dense sparse topK).map (fun r => r.chunk.id)).Nodup := by
  rw [milvusFuse_ids]
  refine List.Nodup.sublist (List.take_sublist _ _) ?_
  have hkeys : ((processHits sparse (processHits dense ([], []))).1.map
      Prod.fst).Nodup := by
    refine keys_nodup_processHitsGo sparse 0 _ ?_
    refine keys_nodup_processHitsGo dense 0 ([], []) ?_
    simp
  exact ((List.perm_insertionSort _ _).nodup_iff).mpr hkeys

lemma milvusFuse_pairwise (dense sparse : List Hit) (topK : Nat) :
    (milvusFuse dense sparse topK).Pairwise (fun a b => b.score ≤ a.score) := by
  rw [milvusFuse_eq]
  have hsorted := List.sorted_insertionSort
    (scoreGE (processHits sparse (processHits dense ([], []))).1)
    ((processHits sparse (processHits dense ([], []))).1.map Prod.fst)
  have htake := List.Pairwise.sublist (List.take_sublist topK _) hsorted
  exact pairwise_map_enumFrom _ _ _ (fun i a j b hab => hab) _ 0 htake

/-- C3 (amended): for duplicate-free dense and sparse hit lists,
`MilvusStore.search`'s RRF fusion gives every returned candidate the fused
score `Σ 1/(60 + rank + 1)` over the ranked lists containing it
(`rrfContrib`), takes its chunk fields from the first hit carrying its id
(dense hits first), deduplicates candidates by id and orders them by fused
score descending.  On the spec's example (dense `[d1, d2]`, sparse
`[d2, d1, d3]`) the fused score of `d1` is `1/61 + 1/62` (not
`1/61 + 1/61`), of `d2` is `1/62 + 1/61`, of `d3` is `1/63`, and neither
`d1` nor `d2` can appear after `d3` in the returned ordering. -/
theorem C3_rrf_fusion (dense sparse : List Hit) (topK : Nat)
    (hd : (dense.map Hit.id).Nodup) (hs : (sparse.map Hit.id).Nodup) :
    (∀ r ∈ milvusFuse dense sparse topK,
      r.score = rrfContrib dense r.chunk.id + rrfContrib sparse r.chunk.id ∧
      ∃ h, firstHit r.chunk.id (dense ++ sparse) = some h ∧
        r.chunk = chunkOfHit h) ∧
    ((milvusFuse dense sparse topK).map (fun r => r.chunk.id)).Nodup ∧
    (milvusFuse dense sparse topK).Pairwise (fun a b => b.score ≤ a.score) ∧
    (∀ r ∈ milvusFuse [exHit "d1".toList, exHit "d2".toList]
        [exHit "d2".toList, exHit "d1".toList, exHit "d3".toList] 100,
      (r.chunk.id = "d1".toList → r.score = 1/61 + 1/62) ∧
      (r.chunk.id = "d2".toList → r.score = 1/62 + 1/61) ∧
      (r.chunk.id = "d3".toList → r.score = 1/63)) ∧
    (∀ (i j : Fin (milvusFuse [exHit "d1".toList, exHit "d2".toList]
        [exHit "d2".toList, exHit "d1".toList, exHit "d3".toList] 100).length),
      i < j →
      ((milvusFuse [exHit "d1".toList, exHit "d2".toList]
        [exHit "d2".toList, exHit "d1".toList, exHit "d3".toList] 100).get i).chunk.id
        = "d3".toList →
      ((milvusFuse [exHit "d1".toList, exHit "d2".toList]
        [exHit "d2".toList, exHit "d1".toList, exHit "d3".toList] 100).get j).chunk.id
        ≠ "d1".toList ∧
      ((milvusFuse [exHit "d1".toList, exHit "d2".toList]
        [exHit "d2".toList, exHit "d1".toList, exHit "d3".toList] 100).get j).chunk.id
        ≠ "d2".toList) := by
  have hex : ∀ r ∈ milvusFuse [exHit "d1".toList, exHit "d2".toList]
      [exHit "d2".toList, exHit "d1".toList, exHit "d3".toList] 100,
      (r.chunk.id = "d1".toList → r.score = 1/61 + 1/62) ∧
      (r.chunk.id = "d2".toList → r.score = 1/62 + 1/61) ∧
      (r.chunk.id = "d3".toList → r.score = 1/63) := by
    intro r hr
    obtain ⟨hscore, -⟩ := milvusFuse_mem _ _ 100 (by decide) (by decide) r hr
    refine ⟨fun h1 => ?_, fun h1 => ?_, fun h1 => ?_⟩
    · rw [hscore, h1, show rrfContrib [exHit "d1".toList, exHit "d2".toList]
          "d1".toList = rrfTerm 0 from by rw [rrfContrib,
            show idxOf? "d1".toList [exHit "d1".toList, exHit "d2".toList] =
              some 0 from by decide],
        show rrfContrib [exHit "d2".toList, exHit "d1".toList, exHit "d3".toList]
          "d1".toList = rrfTerm 1 from by rw [rrfContrib,
            show idxOf? "d1".toList [exHit "d2".toList, exHit "d1".toList,
              exHit "d3".toList] = some 1 from by decide]]
      norm_num [rrfTerm, rrfK]
    · rw [hscore, h1, show rrfContrib [exHit "d1".toList, exHit "d2".toList]
          "d2".toList = rrfTerm 1 from by rw [rrfContrib,
            show idxOf? "d2".toList [exHit "d1".toList, exHit "d2".toList] =
              some 1 from by decide],
        show rrfContrib [exHit "d2".toList, exHit "d1".toList, exHit "d3".toList]
          "d2".toList = rrfTerm 0 from by rw [rrfContrib,
            show idxOf? "d2".toList [exHit "d2".toList, exHit "d1".toList,
              exHit "d3".toList] = some 0 from by decide]]
      norm_num [rrfTerm, rrfK]
    · rw [hscore, h1, show rrfContrib [exHit "d1".toList, exHit "d2".toList]
          "d3".toList = 0 from by rw [rrfContrib,
            show idxOf? "d3".toList [exHit "d1".toList, exHit "d2".toList] =
              none from by decide],
        show rrfContrib [exHit "d2".toList, exHit "d1".toList, exHit "d3".toList]
          "d3".toList = rrfTerm 2 from by rw [rrfContrib,
            show idxOf? "d3".toList [exHit "d2".toList, exHit "d1".toList,
              exHit "d3".toList] = some 2 from by decide]]
      norm_num [rrfTerm, rrfK]
  refine ⟨milvusFuse_mem dense sparse topK hd hs, milvusFuse_nodup dense sparse topK,
    milvusFuse_pairwise dense sparse topK, hex, ?_⟩
  intro i j hij h3
  have hpair := milvusFuse_pairwise [exHit "d1".toList, exHit "d2".toList]
    [exHit "d2".toList, exHit "d1".toList, exHit "d3".toList] 100
  rw [List.pairwise_iff_get] at hpair
  have hge := hpair i j hij
  have hmi := List.get_mem _ i.1 i.2
  have hmj := List.get_mem _ j.1 j.2
  have hsi := (hex _ hmi).2.2 h3
  constructor
  · intro h1
    have hsj := (hex _ hmj).1 h1
    rw [hsi, hsj] at hge
    norm_num at hge
  · intro h1
    have hsj := (hex _ hmj).2.1 h1
    rw [hsi, hsj] at hge
    norm_num at hge

/-- C3 counterexample: on the spec's example the code assigns `d1` the fused
score `1/61 + 1/62` (rank 0 in the dense list plus rank 1 in the sparse
list), which differs from the claim's stated value `1/61 + 1/61`. -/
theorem C3_counterexample :
    scoreOf (processHits [exHit "d2".toList, exHit "d1".toList, exHit "d3".toList]
      (processHits [exHit "d1".toList, exHit "d2".toList] ([], []))).1 "d1".toList
      = 1/61 + 1/62 ∧
    (1/61 + 1/62 : ℚ) ≠ 1/61 + 1/61 := by
  constructor
  · rw [fuse_scores_char]
    have h1 : contribFrom 0 [exHit "d1".toList, exHit "d2".toList] "d1".toList
        = rrfTerm 0 := by
      show (if (exHit "d1".toList).id = "d1".toList then rrfTerm 0 else 0) +
        ((if (exHit "d2".toList).id = "d1".toList then rrfTerm 1 else 0) + 0)
        = rrfTerm 0
      rw [if_pos (by decide), if_neg (by decide)]
      ring
    have h2 : contribFrom 0 [exHit "d2".toList, exHit "d1".toList,
        exHit "d3".toList] "d1".toList = rrfTerm 1 := by
      show (if (exHit "d2".toList).id = "d1".toList then rrfTerm 0 else 0) +
        ((if (exHit "d1".toList).id = "d1".toList then rrfTerm 1 else 0) +
         ((if (exHit "d3".toList).id = "d1".toList then rrfTerm 2 else 0) + 0))
        = rrfTerm 1
      rw [if_neg (by decide), if_pos (by decide), if_neg (by decide)]
      ring
    rw [h1, h2]
    norm_num [rrfTerm, rrfK]
  · norm_num

/-- C3 witness: the fusion theorem applied to the spec's example lists (the
result list is sorted by fused score descending). -/
theorem C3_rrf_fusion_witness :
    (milvusFuse [exHit "d1".toList, exHit "d2".toList]
      [exHit "d2".toList, exHit "d1".toList, exHit "d3".toList] 100).Pairwise
        (fun a b => b.score ≤ a.score) :=
  (C3_rrf_fusion [exHit "d1".toList, exHit "d2".toList]
    [exHit "d2".toList, exHit "d1".toList, exHit "d3".toList] 100
    (by decide) (by decide)).2.2.1

lemma getLast?_eq_some_getLastD {α : Type} (l : List α) (d : α) (h : l ≠ []) :
    l.getLast? = some (l.getLastD d) := by
  induction l with
  | nil => exact absurd rfl h
  | cons a t ih =>
    cases t with
    | nil => rfl
    | cons b t2 =>
      have h1 : (a :: b :: t2 : List α).getLast? = (b :: t2).getLast? := rfl
      have h2 : (a :: b :: t2 : List α).getLastD d = (b :: t2).getLastD d := rfl
      rw [h1, h2]
      exact ih (by simp)

lemma head?_append_left {α : Type} (l t : List α) (h : l ≠ []) :
    (l ++ t).head? = l.head? := by
  cases l with
  | nil => exact absurd rfl h
  | cons a b => rfl

lemma joinSep_nil_sep_len : ∀ l : List Str,
    (joinSep [] l).length = (l.map List.length).sum := by
  intro l
  induction l with
  | nil => rfl
  | cons p rest ih =>
    cases rest with
    | nil => simp [joinSep]
    | cons q rest2 =>
      show (p ++ [] ++ joinSep [] (q :: rest2)).length = _
      simp only [List.append_nil, List.length_append, ih, List.map_cons,
        List.sum_cons]

lemma packSentsGo_fits (maxC ov : Nat) :
    ∀ (units : List Str) (groups : List (List Str)) (current : List Str)
      (curLen : Nat),
      curLen = (current.map List.length).sum →
      (∀ g ∈ groups, groupFits maxC g) →
      groupFits maxC current →
      ∀ g ∈ packSentsGo maxC ov units groups current curLen,
        groupFits maxC g := by
  intro units
  induction units with
  | nil =>
    intro groups current curLen _ hg hc g hmem
    simp only [packSentsGo] at hmem
    by_cases hcur : current ≠ []
    · rw [if_pos hcur] at hmem
      rcases List.mem_append.mp hmem with h1 | h1
      · exact hg g h1
      · rw [List.mem_singleton] at h1
        subst h1
        exact hc
    · rw [if_neg hcur] at hmem
      exact hg g hmem
  | cons s rest ih =>
    intro groups current curLen hlen hg hc g hmem
    simp only [packSentsGo] at hmem
    by_cases hflush : curLen + s.length > maxC ∧ current ≠ []
    · rw [if_pos hflush] at hmem
      refine ih _ _ _ ?_ ?_ ?_ g hmem
      · rw [joinSep_nil_sep_len]
        simp
      · intro g2 hg2
        rcases List.mem_append.mp hg2 with h1 | h1
        · exact hg g2 h1
        · rw [List.mem_singleton] at h1
          subst h1
          exact hc
      · right
        rw [List.length_append]
        by_cases hov : ov > 0
        · rw [if_pos hov]
          simp
        · rw [if_neg hov]
          simp
    · rw [if_neg hflush] at hmem
      refine ih _ _ _ ?_ hg ?_ g hmem
      · simp [hlen]
      · rcases not_and_or.mp hflush with h1 | h1
        · left
          simp only [List.map_append, List.sum_append, List.map_cons,
            List.sum_cons, List.sum_nil, List.map_nil]
          omega
        · right
          rw [not_not] at h1
          subst h1
          simp

lemma packParasGo_fits (maxC ov : Nat) :
    ∀ (units : List Str) (groups : List (List Str)) (current : List Str)
      (curLen : Nat),
      curLen = (current.map List.length).sum →
      (∀ g ∈ groups, groupFits maxC g) →
      groupFits maxC current →
      ∀ g ∈ packParasGo maxC ov units groups current curLen,
        groupFits maxC g := by
  intro units
  induction units with
  | nil =>
    intro groups current curLen _ hg hc g hmem
    simp only [packParasGo] at hmem
    by_cases hcur : current ≠ []
    · rw [if_pos hcur] at hmem
      rcases List.mem_append.mp hmem with h1 | h1
      · exact hg g h1
      · rw [List.mem_singleton] at h1
        subst h1
        exact hc
    · rw [if_neg hcur] at hmem
      exact hg g hmem
  | cons s rest ih =>
    intro groups current curLen hlen hg hc g hmem
    simp only [packParasGo] at hmem
    by_cases hflush : curLen + s.length > maxC ∧ current ≠ []
    · rw [if_pos hflush] at hmem
      refine ih _ _ _ ?_ ?_ ?_ g hmem
      · rw [joinSep_nil_sep_len]
        simp
      · intro g2 hg2
        rcases List.mem_append.mp hg2 with h1 | h1
        · exact hg g2 h1
        · rw [List.mem_singleton] at h1
          subst h1
          exact hc
      · right
        rw [List.length_append]
        by_cases hov : ov > 0
        · rw [if_pos hov]
          by_cases hsmall : (current.getLastD []).length ≤ ov
          · rw [if_pos hsmall]
            simp
          · rw [if_neg hsmall]
            simp
        · rw [if_neg hov]
          simp
    · rw [if_neg hflush] at hmem
      refine ih _ _ _ ?_ hg ?_ g hmem
      · simp [hlen]
      · rcases not_and_or.mp hflush with h1 | h1
        · left
          simp only [List.map_append, List.sum_append, List.map_cons,
            List.sum_cons, List.sum_nil, List.map_nil]
          omega
        · right
          rw [not_not] at h1
          subst h1
          simp

lemma packSentsGo_chain (maxC ov : Nat) (hov : 0 < ov) :
    ∀ (units : List Str) (groups : List (List Str)) (current : List Str)
      (curLen : Nat),
      ((groups = [] ∧ current = []) ∨
        (current ≠ [] ∧
          List.Chain' (fun g₁ g₂ => g₂.head? = g₁.getLast?) (groups ++ [current]))) →
      List.Chain' (fun g₁ g₂ => g₂.head? = g₁.getLast?)
        (packSentsGo maxC ov units groups current curLen) := by
  intro units
  induction units with
  | nil =>
    intro groups current curLen hinv
    simp only [packSentsGo]
    rcases hinv with ⟨h1, h2⟩ | ⟨h1, h2⟩
    · subst h1
      subst h2
      simp
    · rw [if_pos h1]
      exact h2
  | cons s rest ih =>
    intro groups current curLen hinv
    simp only [packSentsGo]
    by_cases hflush : curLen + s.length > maxC ∧ current ≠ []
    · rw [if_pos hflush]
      rcases hinv with ⟨-, hc⟩ | ⟨-, h2⟩
      · exact absurd hc hflush.2
      · refine ih _ _ _ (Or.inr ⟨?_, ?_⟩)
        · rw [if_pos hov]
          simp
        · rw [List.chain'_append]
          refine ⟨h2, by simp, ?_⟩
          intro x hx y hy
          rw [List.getLast?_concat, Option.mem_some_iff] at hx
          subst hx
          rw [show ([(if ov > 0 then [current.getLastD []] else []) ++ [s]] :
            List (List Str)).head? = some ((if ov > 0 then [current.getLastD []]
              else []) ++ [s]) from rfl, Option.mem_some_iff] at hy
          subst hy
          show ((if ov > 0 then [current.getLastD []] else []) ++ [s]).head? =
            current.getLast?
          rw [if_pos hov]
          rw [getLast?_eq_some_getLastD current [] hflush.2]
          rfl
    · rw [if_neg hflush]
      by_cases hcur : current = []
      · rcases hinv with ⟨h1, -⟩ | ⟨h1, -⟩
        · subst h1
          subst hcur
          refine ih _ _ _ (Or.inr ⟨by simp, by simp⟩)
        · exact absurd hcur h1
      · rcases hinv with ⟨-, h1⟩ | ⟨-, h2⟩
        · exact absurd h1 hcur
        · refine ih _ _ _ (Or.inr ⟨by simp, ?_⟩)
          rw [List.chain'_append] at h2 ⊢
          refine ⟨h2.1, by simp, ?_⟩
          intro x hx y hy
          rw [show ([current ++ [s]] : List (List Str)).head? =
            some (current ++ [s]) from rfl, Option.mem_some_iff] at hy
          subst hy
          have hlink := h2.2.2 x hx current (by simp)
          show (current ++ [s]).head? = x.getLast?
          rw [head?_append_left current [s] hcur]
          exact hlink

lemma packParasGo_chain (maxC ov : Nat) (hov : 0 < ov) :
    ∀ (units : List Str) (groups : List (List Str)) (current : List Str)
      (curLen : Nat),
      ((groups = [] ∧ current = []) ∨
        (current ≠ [] ∧
          List.Chain' (fun g₁ g₂ => g₂.head? = some (paraSeed ov g₁))
            (groups ++ [current]))) →
      List.Chain' (fun g₁ g₂ => g₂.head? = some (paraSeed ov g₁))
        (packParasGo maxC ov units groups current curLen) := by
  intro units
  induction units with
  | nil =>
    intro groups current curLen hinv
    simp only [packParasGo]
    rcases hinv with ⟨h1, h2⟩ | ⟨h1, h2⟩
    · subst h1
      subst h2
      simp
    · rw [if_pos h1]
      exact h2
  | cons s rest ih =>
    intro groups current curLen hinv
    simp only [packParasGo]
    by_cases hflush : curLen + s.length > maxC ∧ current ≠ []
    · rw [if_pos hflush]
      rcases hinv with ⟨-, hc⟩ | ⟨-, h2⟩
      · exact absurd hc hflush.2
      · refine ih _ _ _ (Or.inr ⟨?_, ?_⟩)
        · rw [if_pos hov]
          by_cases hsmall : (current.getLastD []).length ≤ ov
          · rw [if_pos hsmall]
            simp
          · rw [if_neg hsmall]
            simp
        · rw [List.chain'_append]
          refine ⟨h2, by simp, ?_⟩
          intro x hx y hy
          rw [List.getLast?_concat, Option.mem_some_iff] at hx
          subst hx
          rw [show ([(if ov > 0 then
              (if (current.getLastD []).length ≤ ov then [current.getLastD []]
                else [takeLastChars ov (current.getLastD [])])
              else []) ++ [s]] : List (List Str)).head? =
            some ((if ov > 0 then
              (if (current.getLastD []).length ≤ ov then [current.getLastD []]
                else [takeLastChars ov (current.getLastD [])])
              else []) ++ [s]) from rfl, Option.mem_some_iff] at hy
          subst hy
          show ((if ov > 0 then
              (if (current.getLastD []).length ≤ ov then [current.getLastD []]
                else [takeLastChars ov (current.getLastD [])])
              else []) ++ [s]).head? = some (paraSeed ov current)
          rw [if_pos hov]
          show (((if (current.getLastD []).length ≤ ov then [current.getLastD []]
              else [takeLastChars ov (current.getLastD [])]) ++ [s]).head?) =
            some (paraSeed ov current)
          unfold paraSeed
          by_cases hsmall : (current.getLastD []).length ≤ ov
          · rw [if_pos hsmall, if_pos hsmall]
            rfl
          · rw [if_neg hsmall, if_neg hsmall]
            rfl
    · rw [if_neg hflush]
      by_cases hcur : current = []
      · rcases hinv with ⟨h1, -⟩ | ⟨h1, -⟩
        · subst h1
          subst hcur
          refine ih _ _ _ (Or.inr ⟨by simp, by simp⟩)
        · exact absurd hcur h1
      · rcases hinv with ⟨-, h1⟩ | ⟨-, h2⟩
        · exact absurd h1 hcur
        · refine ih _ _ _ (Or.inr ⟨by simp, ?_⟩)
          rw [List.chain'_append] at h2 ⊢
          refine ⟨h2.1, by simp, ?_⟩
          intro x hx y hy
          rw [show ([current ++ [s]] : List (List Str)).head? =
            some (current ++ [s]) from rfl, Option.mem_some_iff] at hy
          subst hy
          have hlink := h2.2.2 x hx current (by simp)
          show (current ++ [s]).head? = some (paraSeed ov x)
          rw [head?_append_left current [s] hcur]
          exact hlink

/-- C7 (amended): segments produced by `_recursive_split` are greedily
packed unit groups (paragraphs, or sentences as fallback), where the packed
unit lengths of a group never exceed `max_chars` unless the group is a
single oversized unit optionally preceded by the overlap seed (at most two
units) — the emitted segment text additionally contains the join separators,
which the packing loop does not count against the limit.  With a positive
overlap, when the paragraph-based loop closes a segment it seeds the next
group with up to `overlap` trailing characters of the last paragraph (the
whole paragraph if shorter), while the sentence-based loop seeds it with the
whole last sentence regardless of the overlap setting. -/
theorem C7_recursive_split_bounds (maxChars overlap : Nat) (text : Str) :
    (text.length ≤ maxChars → recursiveSplit maxChars overlap text = [text]) ∧
    (¬ text.length ≤ maxChars →
      ∀ s ∈ recursiveSplit maxChars overlap text,
        ∃ g ∈ (recursiveSplitGroups maxChars overlap text).2,
          s = joinSep (recursiveSplitGroups maxChars overlap text).1 g ∧
          groupFits maxChars g) ∧
    (0 < overlap → ∀ units : List Str,
      List.Chain' (fun g₁ g₂ => g₂.head? = some (paraSeed overlap g₁))
        (packParasGo maxChars overlap units [] [] 0)) ∧
    (0 < overlap → ∀ units : List Str,
      List.Chain' (fun g₁ g₂ => g₂.head? = g₁.getLast?)
        (packSentsGo maxChars overlap units [] [] 0)) := by
  refine ⟨?_, ?_, ?_, ?_⟩
  · intro h
    rw [recursiveSplit, if_pos h]
  · intro h s hs
    have hrs : recursiveSplit maxChars overlap text =
        (recursiveSplitGroups maxChars overlap text).2.map
          (joinSep (recursiveSplitGroups maxChars overlap text).1) := by
      rw [recursiveSplit, if_neg h]
    rw [hrs] at hs
    obtain ⟨g, hg, rfl⟩ := List.mem_map.mp hs
    refine ⟨g, hg, rfl, ?_⟩
    have hfits : ∀ g2 ∈ (recursiveSplitGroups maxChars overlap text).2,
        groupFits maxChars g2 := by
      rw [recursiveSplitGroups]
      by_cases hp : (splitSeq "\n\n".toList text).length > 1
      · rw [if_pos hp]
        exact packParasGo_fits maxChars overlap _ [] [] 0 (by simp)
          (by intro g2 hg2; exact absurd hg2 (List.not_mem_nil g2))
          (Or.inl (by simp))
      · rw [if_neg hp]
        exact packSentsGo_fits maxChars overlap _ [] [] 0 (by simp)
          (by intro g2 hg2; exact absurd hg2 (List.not_mem_nil g2))
          (Or.inl (by simp))
    exact hfits g hg
  · intro hov units
    exact packParasGo_chain maxChars overlap hov units [] [] 0 (Or.inl ⟨rfl, rfl⟩)
  · intro hov units
    exact packSentsGo_chain maxChars overlap hov units [] [] 0 (Or.inl ⟨rfl, rfl⟩)

lemma splitSeq_no_head (s0 : Char) (stail : Str) :
    ∀ l : Str, (∀ c ∈ l, c ≠ s0) → splitSeq (s0 :: stail) l = [l] := by
  intro l
  induction l with
  | nil => intro _; simp [splitSeq]
  | cons c rest ih =>
    intro hno
    rw [splitSeq]
    have hpre : ¬ ((s0 :: stail) ≠ [] ∧
        (s0 :: stail).isPrefixOf (c :: rest)) := by
      rintro ⟨-, hp⟩
      rw [List.isPrefixOf_iff_prefix] at hp
      obtain ⟨t, ht⟩ := hp
      rw [List.cons_append] at ht
      injection ht with h1 h2
      exact hno c (by simp) h1.symm
    rw [dif_neg hpre]
    rw [ih (fun x hx => hno x (List.mem_cons_of_mem _ hx))]

lemma splitSeq_c7 : splitSeq "\n\n".toList "ab. cdefghijklmnop".toList =
    ["ab. cdefghijklmnop".toList] := by
  apply splitSeq_no_head
  decide

lemma splitSentences_c7 : splitSentences "ab. cdefghijklmnop".toList =
    ["ab.".toList, "cdefghijklmnop".toList] := by
  simp +decide [splitSentences, splitSentencesGo]

lemma recursiveSplit_c7 : recursiveSplit 10 2 "ab. cdefghijklmnop".toList =
    ["ab.".toList, "ab. cdefghijklmnop".toList] := by
  rw [recursiveSplit, if_neg (by decide)]
  show (recursiveSplitGroups 10 2 "ab. cdefghijklmnop".toList).2.map
    (joinSep (recursiveSplitGroups 10 2 "ab. cdefghijklmnop".toList).1) = _
  rw [recursiveSplitGroups]
  rw [splitSeq_c7]
  simp only [splitSentences_c7]
  decide

lemma recursiveSplit_c7w : recursiveSplit 10 3 "ab. cdefghijklmnop".toList =
    ["ab.".toList, "ab. cdefghijklmnop".toList] := by
  rw [recursiveSplit, if_neg (by decide)]
  show (recursiveSplitGroups 10 3 "ab. cdefghijklmnop".toList).2.map
    (joinSep (recursiveSplitGroups 10 3 "ab. cdefghijklmnop".toList).1) = _
  rw [recursiveSplitGroups]
  rw [splitSeq_c7]
  simp only [splitSentences_c7]
  decide

/-- C7 counterexample: with `max_chars = 10`, `overlap = 2`, input
`"ab. cdefghijklmnop"` (no paragraph breaks, two sentences) the recursive
split returns a second segment of length 18 > 10 that is not a single
unsplittable sentence (it contains both sentences), and that segment starts
with the whole 3-character previous sentence `"ab."` even though the
configured overlap is only 2 characters. -/
theorem C7_counterexample :
    recursiveSplit 10 2 "ab. cdefghijklmnop".toList =
      ["ab.".toList, "ab. cdefghijklmnop".toList] ∧
    "ab. cdefghijklmnop".toList.length = 18 ∧
    splitSentences "ab. cdefghijklmnop".toList ≠
      ["ab. cdefghijklmnop".toList] ∧
    "ab. cdefghijklmnop".toList.take 3 = "ab.".toList ∧
    2 < "ab.".toList.length := by
  refine ⟨recursiveSplit_c7, by decide, ?_, by decide, by decide⟩
  rw [splitSentences_c7]
  decide

/-- C7 witness: the amended theorem applied to the counterexample input —
the oversized segment is the join of a two-unit group (seed plus oversized
sentence). -/
theorem C7_recursive_split_bounds_witness :
    ∃ g ∈ (recursiveSplitGroups 10 3 "ab. cdefghijklmnop".toList).2,
      "ab. cdefghijklmnop".toList =
        joinSep (recursiveSplitGroups 10 3 "ab. cdefghijklmnop".toList).1 g ∧
      groupFits 10 g :=
  (C7_recursive_split_bounds 10 3 "ab. cdefghijklmnop".toList).2.1 (by decide)
    "ab. cdefghijklmnop".toList (by rw [recursiveSplit_c7w]; simp)

-- Phase 1: cnw basics
lemma cnw_le_length (s : Str) : countNonWs s ≤ s.length :=
  List.length_filter_le _ _

lemma cnw_append (a b : Str) : countNonWs (a ++ b) = countNonWs a + countNonWs b := by
  simp [countNonWs, List.filter_append]

lemma cnw_cons (c : Char) (s : Str) :
    countNonWs (c :: s) = (if isPyWs c then 0 else 1) + countNonWs s := by
  by_cases h : isPyWs c <;> simp [countNonWs, List.filter_cons, h] <;> omega

lemma cnw_reverse (s : Str) : countNonWs s.reverse = countNonWs s := by
  rw [countNonWs, countNonWs, List.filter_reverse, List.length_reverse]

lemma cnw_dropWhile_ws (s : Str) :
    countNonWs (s.dropWhile isPyWs) = countNonWs s := by
  induction s with
  | nil => rfl
  | cons c rest ih =>
    by_cases h : isPyWs c
    · rw [List.dropWhile_cons_of_pos h, ih, cnw_cons, h]
      simp
    · rw [List.dropWhile_cons_of_neg h]

lemma cnw_stripLeft (s : Str) : countNonWs (stripLeft s) = countNonWs s :=
  cnw_dropWhile_ws s

lemma cnw_pyStrip (s : Str) : countNonWs (pyStrip s) = countNonWs s := by
  rw [pyStrip, stripRight, cnw_reverse, cnw_dropWhile_ws, cnw_reverse,
    cnw_stripLeft]

lemma cnw_eq_zero_iff (s : Str) : countNonWs s = 0 ↔ pyStrip s = [] := by
  constructor
  · intro h
    have hall : ∀ c ∈ s, isPyWs c = true := by
      intro c hc
      by_contra hn
      have : c ∈ s.filter (fun c => !isPyWs c) := by
        rw [List.mem_filter]
        exact ⟨hc, by simp [hn]⟩
      rw [countNonWs, List.length_eq_zero] at h
      rw [h] at this
      exact absurd this (List.not_mem_nil c)
    rw [pyStrip, stripLeft, List.dropWhile_eq_nil_iff.mpr hall]
    rfl
  · intro h
    rw [← cnw_pyStrip, h]
    rfl

-- Phase 1b: splitOnChar lemmas
lemma splitOnChar_ne_nil (sep : Char) (s : Str) : splitOnChar sep s ≠ [] := by
  induction s with
  | nil => simp [splitOnChar]
  | cons c rest ih =>
    rw [splitOnChar]
    by_cases h : c = sep
    · simp [h]
    · rw [if_neg h]
      cases hs : splitOnChar sep rest with
      | nil => simp
      | cons p ps => simp

lemma cnwSum_splitOnChar (sep : Char) (hsep : isPyWs sep = true) (s : Str) :
    cnwSum (splitOnChar sep s) = countNonWs s := by
  induction s with
  | nil => rfl
  | cons c rest ih =>
    rw [splitOnChar]
    by_cases h : c = sep
    · rw [if_pos h, cnw_cons, h, hsep]
      simp only [cnwSum, List.map_cons, List.sum_cons]
      rw [show countNonWs [] = 0 from rfl]
      rw [show (List.map countNonWs (splitOnChar sep rest)).sum =
        cnwSum (splitOnChar sep rest) from rfl, ih]
      simp
    · rw [if_neg h]
      cases hs : splitOnChar sep rest with
      | nil => exact absurd hs (splitOnChar_ne_nil sep rest)
      | cons p ps =>
        rw [hs] at ih
        simp only [cnwSum, List.map_cons, List.sum_cons] at ih ⊢
        rw [cnw_cons c rest, ← ih, cnw_cons c p]
        omega

lemma splitOnChar_not_mem (sep : Char) (s : Str) :
    ∀ p ∈ splitOnChar sep s, sep ∉ p := by
  induction s with
  | nil =>
    intro p hp
    rw [show splitOnChar sep [] = [[]] from rfl, List.mem_singleton] at hp
    subst hp
    exact List.not_mem_nil sep
  | cons c rest ih =>
    intro p hp
    rw [splitOnChar] at hp
    by_cases h : c = sep
    · rw [if_pos h, List.mem_cons] at hp
      rcases hp with hp | hp
      · subst hp
        exact List.not_mem_nil sep
      · exact ih p hp
    · rw [if_neg h] at hp
      cases hs : splitOnChar sep rest with
      | nil => exact absurd hs (splitOnChar_ne_nil sep rest)
      | cons q qs =>
        rw [hs, List.mem_cons] at hp
        rcases hp with hp | hp
        · subst hp
          intro hmem
          rcases List.mem_cons.mp hmem with h1 | h1
          · exact h h1.symm
          · exact ih q (hs ▸ List.mem_cons_self q qs) h1
        · exact ih p (hs ▸ List.mem_cons_of_mem q hp)

-- Phase 2: getLast helpers and sentence lemmas
lemma getLastD_irrel {α : Type} (l : List α) (h : l ≠ []) (d₁ d₂ : α) :
    l.getLastD d₁ = l.getLastD d₂ := by
  rw [List.getLastD_eq_getLast?, List.getLastD_eq_getLast?]
  obtain ⟨a, ha⟩ := Option.isSome_iff_exists.mp (List.getLast?_isSome.mpr h)
  rw [ha]
  rfl

lemma getLastD_mem {α : Type} (l : List α) (h : l ≠ []) (d : α) : l.getLastD d ∈ l := by
  rw [List.getLastD_eq_getLast?]
  obtain ⟨a, ha⟩ := Option.isSome_iff_exists.mp (List.getLast?_isSome.mpr h)
  rw [ha]
  exact List.mem_of_mem_getLast? ha

lemma getLastD_append_right {α : Type} (a b : List α) (hb : b ≠ []) (d : α) :
    (a ++ b).getLastD d = b.getLastD d := by
  rw [List.getLastD_eq_getLast?, List.getLastD_eq_getLast?, List.getLast?_append]
  obtain ⟨x, hx⟩ := Option.isSome_iff_exists.mp (List.getLast?_isSome.mpr hb)
  rw [hx]
  rfl

lemma getLastD_suffix {α : Type} (s l : List α) (hs : s <:+ l) (hne : s ≠ []) (d : α) :
    s.getLastD d = l.getLastD d := by
  obtain ⟨t, rfl⟩ := hs
  rw [getLastD_append_right t s hne]

lemma getLastD_cons_ne {α : Type} (c : α) (rest : List α) (hr : rest ≠ []) (d : α) :
    (c :: rest).getLastD d = rest.getLastD d := by
  rw [List.getLastD_cons]
  exact getLastD_irrel rest hr c d

lemma cnwSum_sentGo : ∀ n : Nat, ∀ s acc : Str, s.length ≤ n →
    cnwSum (splitSentencesGo s acc) = countNonWs s + countNonWs acc := by
  intro n
  induction n with
  | zero =>
    intro s acc h
    rw [List.length_eq_zero.mp (Nat.le_zero.mp h)]
    simp only [splitSentencesGo, cnwSum, List.map_cons, List.map_nil,
      List.sum_cons, List.sum_nil, cnw_reverse]
    rw [show countNonWs [] = 0 from rfl]
    omega
  | succ n ih =>
    intro s acc h
    cases s with
    | nil =>
      simp only [splitSentencesGo, cnwSum, List.map_cons, List.map_nil,
        List.sum_cons, List.sum_nil, cnw_reverse]
      rw [show countNonWs [] = 0 from rfl]
      omega
    | cons c rest =>
      simp only [splitSentencesGo]
      rw [List.length_cons] at h
      by_cases hsp : (sentencePunct c && headIsWs rest) = true
      · rw [if_pos hsp]
        simp only [cnwSum, List.map_cons, List.sum_cons]
        rw [show (List.map countNonWs (splitSentencesGo
          (rest.dropWhile isPyWs) [])).sum = cnwSum (splitSentencesGo
            (rest.dropWhile isPyWs) []) from rfl]
        rw [ih (rest.dropWhile isPyWs) []
          (le_trans (length_dropWhile_le isPyWs rest) (by omega))]
        rw [cnw_dropWhile_ws, cnw_reverse, cnw_cons, cnw_cons]
        rw [show countNonWs [] = 0 from rfl]
        omega
      · rw [if_neg hsp]
        rw [ih rest (c :: acc) (by omega), cnw_cons, cnw_cons]
        omega

lemma cnwSum_splitSentences (s : Str) :
    cnwSum (splitSentences s) = countNonWs s := by
  rw [splitSentences, cnwSum_sentGo s.length s [] le_rfl]
  rw [show countNonWs [] = 0 from rfl]
  omega

lemma sentGo_outputs_ne : ∀ n : Nat, ∀ s acc : Str, s.length ≤ n →
    (s = [] → acc ≠ []) → (s ≠ [] → isPyWs (s.getLastD 'a') = false) →
    ∀ out ∈ splitSentencesGo s acc, out ≠ [] := by
  intro n
  induction n with
  | zero =>
    intro s acc h hacc _ out hout
    rw [List.length_eq_zero.mp (Nat.le_zero.mp h)] at hout hacc
    simp only [splitSentencesGo, List.mem_singleton] at hout
    subst hout
    simpa using hacc rfl
  | succ n ih =>
    intro s acc h hacc hlast out hout
    cases s with
    | nil =>
      simp only [splitSentencesGo, List.mem_singleton] at hout
      subst hout
      simpa using hacc rfl
    | cons c rest =>
      simp only [splitSentencesGo] at hout
      rw [List.length_cons] at h
      by_cases hsp : (sentencePunct c && headIsWs rest) = true
      · rw [if_pos hsp] at hout
        rcases List.mem_cons.mp hout with hout | hout
        · subst hout
          simp
        · have hrne : rest ≠ [] := by
            intro hr
            rw [hr] at hsp
            simp [headIsWs] at hsp
          have hlr : isPyWs (rest.getLastD 'a') = false := by
            rw [← getLastD_cons_ne c rest hrne 'a']
            exact hlast (by simp)
          have hdne : rest.dropWhile isPyWs ≠ [] := by
            intro hd
            have hall := List.dropWhile_eq_nil_iff.mp hd
            exact absurd (hall _ (getLastD_mem rest hrne 'a')) (by rw [hlr]; simp)
          refine ih (rest.dropWhile isPyWs) [] ?_ ?_ ?_ out hout
          · exact le_trans (length_dropWhile_le isPyWs rest) (by omega)
          · intro hd
            exact absurd hd hdne
          · intro _
            rw [getLastD_suffix _ rest (List.dropWhile_suffix isPyWs) hdne 'a']
            exact hlr
      · rw [if_neg hsp] at hout
        refine ih rest (c :: acc) (by omega) (by intro _; simp) ?_ out hout
        intro hrne
        rw [← getLastD_cons_ne c rest hrne 'a']
        exact hlast (by simp)

lemma splitSentences_outputs_ne (s : Str) (hne : s ≠ [])
    (hlast : isPyWs (s.getLastD 'a') = false) :
    ∀ out ∈ splitSentences s, out ≠ [] := by
  rw [splitSentences]
  exact sentGo_outputs_ne s.length s [] le_rfl (fun h => absurd h hne)
    (fun _ => hlast)

-- Phase 3: join lemmas
lemma joinSep_ne_nil (sep : Str) : ∀ block : List Str, block ≠ [] →
    (∀ u ∈ block, u ≠ []) → joinSep sep block ≠ [] := by
  intro block
  cases block with
  | nil => intro h; exact absurd rfl h
  | cons p ps =>
    intro _ hu
    cases ps with
    | nil => exact hu p (by simp)
    | cons q qs =>
      show p ++ sep ++ joinSep sep (q :: qs) ≠ []
      have hp : p ≠ [] := hu p (by simp)
      cases p with
      | nil => exact absurd rfl hp
      | cons a as => simp

lemma cnwSum_le_cnw_joinSep (sep : Str) : ∀ g : List Str,
    cnwSum g ≤ countNonWs (joinSep sep g) := by
  intro g
  induction g with
  | nil => simp [joinSep, cnwSum]
  | cons p ps ih =>
    cases ps with
    | nil => simp [joinSep, cnwSum]
    | cons q qs =>
      show cnwSum (p :: q :: qs) ≤ countNonWs (p ++ sep ++ joinSep sep (q :: qs))
      rw [cnw_append, cnw_append]
      simp only [cnwSum, List.map_cons, List.sum_cons] at ih ⊢
      omega

lemma joinSep_head? (sep : Str) (q : Str) (ps : List Str) (hq : q ≠ []) :
    (joinSep sep (q :: ps)).head? = q.head? := by
  cases ps with
  | nil => rfl
  | cons r rs =>
    show (q ++ sep ++ joinSep sep (r :: rs)).head? = q.head?
    rw [List.append_assoc]
    cases q with
    | nil => exact absurd rfl hq
    | cons a as => rfl

lemma joinSep_getLastD (sep : Str) : ∀ block : List Str, block ≠ [] →
    (∀ u ∈ block, u ≠ []) → ∀ d : Char,
    (joinSep sep block).getLastD d = (block.getLastD []).getLastD d := by
  intro block
  induction block with
  | nil => intro h; exact absurd rfl h
  | cons p ps ih =>
    intro _ hu d
    cases ps with
    | nil => rfl
    | cons q qs =>
      show (p ++ sep ++ joinSep sep (q :: qs)).getLastD d = _
      have hj : joinSep sep (q :: qs) ≠ [] :=
        joinSep_ne_nil sep (q :: qs) (by simp)
          (fun u hu2 => hu u (List.mem_cons_of_mem p hu2))
      rw [List.append_assoc,
        getLastD_append_right p (sep ++ joinSep sep (q :: qs))
          (by cases hs : joinSep sep (q :: qs) with
              | nil => exact absurd hs hj
              | cons a as => simp) d,
        getLastD_append_right sep (joinSep sep (q :: qs)) hj d,
        ih (by simp) (fun u hu2 => hu u (List.mem_cons_of_mem p hu2)) d]
      simp [List.getLastD_cons]

lemma chain_nn_of_no_nl : ∀ u : Str, '\n' ∉ u → List.Chain' noNN u := by
  intro u
  induction u with
  | nil => intro _; simp
  | cons a rest ih =>
    intro hmem
    cases rest with
    | nil => simp
    | cons b r =>
      rw [List.chain'_cons]
      refine ⟨?_, ih (fun h => hmem (List.mem_cons_of_mem a h))⟩
      intro ⟨ha, _⟩
      exact hmem (by rw [← ha]; simp)

lemma joinSep_chain_nn : ∀ block : List Str,
    (∀ u ∈ block, u ≠ [] ∧ '\n' ∉ u) →
    List.Chain' noNN (joinSep ['\n'] block) := by
  intro block
  induction block with
  | nil => intro _; simp [joinSep]
  | cons p ps ih =>
    intro hu
    cases ps with
    | nil => exact chain_nn_of_no_nl p (hu p (by simp)).2
    | cons q qs =>
      show List.Chain' noNN (p ++ ['\n'] ++ joinSep ['\n'] (q :: qs))
      have hq : q ≠ [] := (hu q (by simp)).1
      have hj : joinSep ['\n'] (q :: qs) ≠ [] :=
        joinSep_ne_nil ['\n'] (q :: qs) (by simp)
          (fun u hu2 => (hu u (List.mem_cons_of_mem p hu2)).1)
      rw [List.append_assoc, List.chain'_append]
      refine ⟨chain_nn_of_no_nl p (hu p (by simp)).2, ?_, ?_⟩
      · show List.Chain' noNN ('\n' :: joinSep ['\n'] (q :: qs))
        cases hs : joinSep ['\n'] (q :: qs) with
        | nil => exact absurd hs hj
        | cons a as =>
          rw [List.chain'_cons]
          constructor
          · intro ⟨_, ha⟩
            have hhead : (joinSep ['\n'] (q :: qs)).head? = q.head? :=
              joinSep_head? ['\n'] q qs hq
            rw [hs] at hhead
            cases q with
            | nil => exact absurd rfl hq
            | cons b bs =>
              simp only [List.head?_cons, Option.some.injEq] at hhead
              subst hhead
              exact (hu (a :: bs) (by simp)).2 (by rw [← ha]; simp)
          · rw [← hs]
            exact ih (fun u hu2 => hu u (List.mem_cons_of_mem p hu2))
      · intro x hx y hy
        simp only [List.singleton_append, List.head?_cons,
          Option.mem_some_iff] at hy
        subst hy
        intro ⟨hx2, _⟩
        have : x ∈ p := List.mem_of_mem_getLast? hx
        exact (hu p (by simp)).2 (by rw [← hx2]; exact this)

lemma splitSeq_nn_of_chain : ∀ l : Str, List.Chain' noNN l →
    splitSeq ['\n', '\n'] l = [l] := by
  intro l
  induction l with
  | nil => intro _; simp [splitSeq]
  | cons c rest ih =>
    intro hch
    rw [splitSeq]
    have hpre : ¬ ((['\n', '\n'] : Str) ≠ [] ∧
        (['\n', '\n'] : Str).isPrefixOf (c :: rest)) := by
      rintro ⟨-, hp⟩
      cases rest with
      | nil => simp [List.isPrefixOf] at hp
      | cons r rs =>
        simp only [List.isPrefixOf, Bool.and_eq_true, beq_iff_eq] at hp
        rw [List.chain'_cons] at hch
        exact hch.1 ⟨hp.1.symm, hp.2.1.symm⟩
    rw [dif_neg hpre, ih hch.tail]

-- Phase 4: sentence-packing lemmas
lemma packSentsGo_cnw (maxC ov : Nat) : ∀ (units : List Str)
    (groups : List (List Str)) (current : List Str) (curLen : Nat),
    gCnw groups + cnwSum current + cnwSum units ≤
      gCnw (packSentsGo maxC ov units groups current curLen) := by
  intro units
  induction units with
  | nil =>
    intro groups current curLen
    rw [packSentsGo]
    by_cases hc : current ≠ []
    · rw [if_pos hc]
      simp only [gCnw, cnwSum, List.map_append, List.sum_append,
        List.map_cons, List.sum_cons, List.map_nil, List.sum_nil]
      omega
    · rw [if_neg hc]
      rw [not_not] at hc
      subst hc
      simp only [cnwSum, List.map_nil, List.sum_nil]
      omega
  | cons s rest ih =>
    intro groups current curLen
    rw [packSentsGo]
    by_cases hflush : curLen + s.length > maxC ∧ current ≠ []
    · rw [if_pos hflush]
      refine le_trans ?_ (ih (groups ++ [current]) _ _)
      simp only [gCnw, cnwSum, List.map_append, List.sum_append,
        List.map_cons, List.sum_cons, List.map_nil, List.sum_nil]
      omega
    · rw [if_neg hflush]
      refine le_trans ?_ (ih groups (current ++ [s]) _)
      simp only [gCnw, cnwSum, List.map_append, List.sum_append,
        List.map_cons, List.sum_cons, List.map_nil, List.sum_nil]
      omega

lemma packSentsGo_groups (maxC ov : Nat) : ∀ (units : List Str)
    (groups : List (List Str)) (current : List Str) (curLen : Nat),
    (∀ u ∈ units, u ≠ []) →
    (∀ g ∈ groups, g ≠ [] ∧ ∀ u ∈ g, u ≠ []) →
    (∀ u ∈ current, u ≠ []) →
    ∀ g ∈ packSentsGo maxC ov units groups current curLen,
      g ≠ [] ∧ ∀ u ∈ g, u ≠ [] := by
  intro units
  induction units with
  | nil =>
    intro groups current curLen _ hg hc g hmem
    rw [packSentsGo] at hmem
    by_cases hcur : current ≠ []
    · rw [if_pos hcur] at hmem
      rcases List.mem_append.mp hmem with h | h
      · exact hg g h
      · rw [List.mem_singleton] at h
        subst h
        exact ⟨hcur, hc⟩
    · rw [if_neg hcur] at hmem
      exact hg g hmem
  | cons s rest ih =>
    intro groups current curLen hu hg hc g hmem
    rw [packSentsGo] at hmem
    by_cases hflush : curLen + s.length > maxC ∧ current ≠ []
    · rw [if_pos hflush] at hmem
      refine ih _ _ _ (fun u h2 => hu u (List.mem_cons_of_mem s h2)) ?_ ?_
        g hmem
      · intro g2 h2
        rcases List.mem_append.mp h2 with h3 | h3
        · exact hg g2 h3
        · rw [List.mem_singleton] at h3
          subst h3
          exact ⟨hflush.2, hc⟩
      · intro u h2
        rcases List.mem_append.mp h2 with h3 | h3
        · by_cases hov : ov > 0
          · rw [if_pos hov, List.mem_singleton] at h3
            subst h3
            exact hc _ (getLastD_mem current hflush.2 [])
          · rw [if_neg hov] at h3
            exact absurd h3 (List.not_mem_nil u)
        · rw [List.mem_singleton] at h3
          subst h3
          exact hu u (by simp)
    · rw [if_neg hflush] at hmem
      refine ih _ _ _ (fun u h2 => hu u (List.mem_cons_of_mem s h2)) hg ?_
        g hmem
      intro u h2
      rcases List.mem_append.mp h2 with h3 | h3
      · exact hc u h3
      · rw [List.mem_singleton] at h3
        subst h3
        exact hu u (by simp)

-- Phase 5: recursiveSplit under the no-double-newline discipline
lemma recursiveSplit_sent_eq (maxC ov : Nat) (t : Str)
    (hlen : ¬ t.length ≤ maxC) (hch : List.Chain' noNN t) :
    recursiveSplit maxC ov t =
      (packSentsGo maxC ov (splitSentences t) [] [] 0).map
        (joinSep " ".toList) := by
  rw [recursiveSplit, if_neg hlen]
  show ((recursiveSplitGroups maxC ov t).2.map
    (joinSep (recursiveSplitGroups maxC ov t).1)) = _
  rw [recursiveSplitGroups, show "\n\n".toList = ['\n', '\n'] from rfl,
    splitSeq_nn_of_chain t hch, if_neg (by simp)]

lemma recursiveSplit_cnw (maxC ov : Nat) (t : Str)
    (hch : List.Chain' noNN t) :
    countNonWs t ≤ cnwSum (recursiveSplit maxC ov t) := by
  by_cases hlen : t.length ≤ maxC
  · rw [recursiveSplit, if_pos hlen]
    simp [cnwSum]
  · rw [recursiveSplit_sent_eq maxC ov t hlen hch]
    have h1 := packSentsGo_cnw maxC ov (splitSentences t) [] [] 0
    rw [cnwSum_splitSentences] at h1
    simp only [gCnw, List.map_nil, List.sum_nil, cnwSum, Nat.zero_add,
      Nat.add_zero] at h1
    refine le_trans h1 ?_
    show (List.map cnwSum (packSentsGo maxC ov (splitSentences t) [] [] 0)).sum
      ≤ cnwSum (List.map (joinSep " ".toList)
        (packSentsGo maxC ov (splitSentences t) [] [] 0))
    rw [cnwSum, List.map_map]
    exact List.sum_le_sum (fun g _ => cnwSum_le_cnw_joinSep _ g)

lemma recursiveSplit_texts (maxC ov : Nat) (t : Str) (hne : t ≠ [])
    (hch : List.Chain' noNN t) (hlast : isPyWs (t.getLastD 'a') = false) :
    ∀ s ∈ recursiveSplit maxC ov t, s ≠ [] := by
  intro s hs
  by_cases hlen : t.length ≤ maxC
  · rw [recursiveSplit, if_pos hlen, List.mem_singleton] at hs
    subst hs
    exact hne
  · rw [recursiveSplit_sent_eq maxC ov t hlen hch] at hs
    obtain ⟨g, hg, rfl⟩ := List.mem_map.mp hs
    have hgood := packSentsGo_groups maxC ov (splitSentences t) [] [] 0
      (splitSentences_outputs_ne t hne hlast)
      (fun g2 h2 => absurd h2 (List.not_mem_nil g2))
      (fun u h2 => absurd h2 (List.not_mem_nil u)) g hg
    exact joinSep_ne_nil _ g hgood.1 hgood.2

-- Phase 6: strip-shape lemmas and chunk-level lemmas
lemma pyStrip_not_mem (c : Char) (s : Str) (h : c ∉ s) : c ∉ pyStrip s := by
  intro hmem
  apply h
  rw [pyStrip, stripRight, stripLeft] at hmem
  rw [List.mem_reverse] at hmem
  have h1 := (List.dropWhile_sublist isPyWs).mem hmem
  rw [List.mem_reverse] at h1
  exact (List.dropWhile_sublist isPyWs).mem h1

lemma dropWhile_headD_false (p : Char → Bool) (d : Char) : ∀ l : Str,
    l.dropWhile p ≠ [] → p ((l.dropWhile p).headD d) = false := by
  intro l
  induction l with
  | nil => intro h; exact absurd rfl h
  | cons c rest ih =>
    intro h
    by_cases hp : p c
    · rw [List.dropWhile_cons_of_pos hp] at h ⊢
      exact ih h
    · rw [List.dropWhile_cons_of_neg hp]
      simpa using hp

lemma pyStrip_last (s : Str) (h : pyStrip s ≠ []) :
    isPyWs ((pyStrip s).getLastD 'a') = false := by
  rw [pyStrip, stripRight] at h ⊢
  rw [List.getLastD_eq_getLast?, List.getLast?_reverse]
  have hne : (stripLeft s).reverse.dropWhile isPyWs ≠ [] := by
    intro h2
    rw [h2] at h
    exact h rfl
  rw [← List.headD_eq_head?]
  exact dropWhile_headD_false isPyWs 'a' (stripLeft s).reverse hne

lemma goodUnit_pyStrip (line : Str) (hnl : '\n' ∉ line)
    (hne : pyStrip line ≠ []) : goodUnit (pyStrip line) :=
  ⟨hne, pyStrip_not_mem '\n' line hnl, pyStrip_last line hne⟩

lemma chunkCnw_append (a b : List Chunk) :
    chunkCnw (a ++ b) = chunkCnw a + chunkCnw b := by
  simp [chunkCnw]

lemma updateLast_cons₂ (f : Chunk → Chunk) (c d : Chunk) (rest : List Chunk) :
    updateLast f (c :: d :: rest) = c :: updateLast f (d :: rest) := rfl

lemma chunkCnw_mergeIntoLast (t : Str) : ∀ cs : List Chunk, cs ≠ [] →
    chunkCnw (mergeIntoLast t cs) = chunkCnw cs + countNonWs t := by
  intro cs
  induction cs with
  | nil => intro h; exact absurd rfl h
  | cons c rest ih =>
    intro _
    cases rest with
    | nil =>
      show chunkCnw [{ c with
        text := c.text ++ '\n' :: t
        tokenCount := (pyWords (c.text ++ '\n' :: t)).length }] = _
      simp only [chunkCnw, List.map_cons, List.map_nil, List.sum_cons,
        List.sum_nil]
      rw [cnw_append, cnw_cons]
      norm_num [isPyWs]
    | cons d rest2 =>
      rw [mergeIntoLast, updateLast_cons₂]
      rw [show updateLast (fun c =>
        { c with
          text := c.text ++ '\n' :: t
          tokenCount := (pyWords (c.text ++ '\n' :: t)).length })
          (d :: rest2) = mergeIntoLast t (d :: rest2) from rfl]
      simp only [chunkCnw, List.map_cons, List.sum_cons] at ih ⊢
      rw [ih (by simp)]
      omega

lemma updateLast_pres (P : Chunk → Prop) (f : Chunk → Chunk)
    (hf : ∀ c, P c → P (f c)) : ∀ cs : List Chunk, (∀ c ∈ cs, P c) →
    ∀ c ∈ updateLast f cs, P c := by
  intro cs
  induction cs with
  | nil => intro _ c hc; exact absurd hc (List.not_mem_nil c)
  | cons c rest ih =>
    intro hall d hd
    cases rest with
    | nil =>
      rw [show updateLast f [c] = [f c] from rfl, List.mem_singleton] at hd
      subst hd
      exact hf c (hall c (by simp))
    | cons e rest2 =>
      rw [updateLast_cons₂, List.mem_cons] at hd
      rcases hd with hd | hd
      · subst hd
        exact hall d (by simp)
      · exact ih (fun x hx => hall x (List.mem_cons_of_mem c hx)) d hd

lemma mergeIntoLast_texts (t : Str) (cs : List Chunk)
    (h : ∀ c ∈ cs, c.text ≠ []) : ∀ c ∈ mergeIntoLast t cs, c.text ≠ [] := by
  refine updateLast_pres _ _ ?_ cs h
  intro c _
  simp

-- Phase 6b: the sub-chunk fold of `_create_chunks_from_block`
lemma fold_sub_cnw (minC : Nat) (dId dN : Str) (ch ar : Option Str)
    (pg total : Nat) : ∀ (ps : List (Nat × Str)) (acc : List Chunk),
    chunkCnw (ps.foldl (fun acc is =>
      if is.2.length < minC ∧ acc ≠ [] then mergeIntoLast is.2 acc
      else acc ++ [mkSubChunk dId dN ch ar pg is.1 total is.2]) acc) =
    chunkCnw acc + (ps.map (fun p => countNonWs p.2)).sum := by
  intro ps
  induction ps with
  | nil => intro acc; simp
  | cons p rest ih =>
    intro acc
    rw [List.foldl_cons]
    by_cases hm : p.2.length < minC ∧ acc ≠ []
    · rw [if_pos hm, ih, chunkCnw_mergeIntoLast p.2 acc hm.2]
      simp only [List.map_cons, List.sum_cons]
      omega
    · rw [if_neg hm, ih, chunkCnw_append]
      show _ + countNonWs (mkSubChunk dId dN ch ar pg p.1 total p.2).text
          + _ = _
      rw [show (mkSubChunk dId dN ch ar pg p.1 total p.2).text = p.2 from rfl]
      simp only [List.map_cons, List.sum_cons]
      omega

lemma fold_sub_texts (minC : Nat) (dId dN : Str) (ch ar : Option Str)
    (pg total : Nat) : ∀ (ps : List (Nat × Str)) (acc : List Chunk),
    (∀ c ∈ acc, c.text ≠ []) → (∀ p ∈ ps, p.2 ≠ []) →
    ∀ c ∈ ps.foldl (fun acc is =>
      if is.2.length < minC ∧ acc ≠ [] then mergeIntoLast is.2 acc
      else acc ++ [mkSubChunk dId dN ch ar pg is.1 total is.2]) acc,
      c.text ≠ [] := by
  intro ps
  induction ps with
  | nil => intro acc hacc _ c hc; exact hacc c hc
  | cons p rest ih
  =>
    intro acc hacc hps c hc
    rw [List.foldl_cons] at hc
    by_cases hm : p.2.length < minC ∧ acc ≠ []
    · rw [if_pos hm] at hc
      refine ih _ (mergeIntoLast_texts p.2 acc hacc) ?_ c hc
      exact fun q hq => hps q (List.mem_cons_of_mem p hq)
    · rw [if_neg hm] at hc
      refine ih _ ?_ (fun q hq => hps q (List.mem_cons_of_mem p hq)) c hc
      intro d hd
      rcases List.mem_append.mp hd with hd | hd
      · exact hacc d hd
      · rw [List.mem_singleton] at hd
        subst hd
        exact hps p (by simp)

-- Phase 6c: `_create_chunks_from_block` with empty existing chunks
lemma createChunks_cnw (maxC minC ov : Nat) (dId dN : Str)
    (ch ar : Option Str) (pg : Nat) (t : Str) (hch : List.Chain' noNN t) :
    countNonWs t ≤
      chunkCnw (createChunksFromBlock maxC minC ov dId dN ch ar pg [] t) := by
  rw [createChunksFromBlock]
  by_cases hlen : t.length ≤ maxC
  · rw [if_pos hlen, if_neg (by simp)]
    simp [chunkCnw, mkBlockChunk]
  · rw [if_neg hlen]
    show countNonWs t ≤ chunkCnw ((recursiveSplit maxC ov t).enum.foldl _ [])
    rw [fold_sub_cnw]
    rw [show (List.map (fun p => countNonWs p.2)
      (recursiveSplit maxC ov t).enum) =
        ((recursiveSplit maxC ov t).enum.map Prod.snd).map countNonWs by
      rw [List.map_map]
      rfl]
    rw [List.enum_map_snd]
    rw [show chunkCnw [] = 0 from rfl]
    have := recursiveSplit_cnw maxC ov t hch
    rw [cnwSum] at this
    omega

lemma createChunks_texts (maxC minC ov : Nat) (dId dN : Str)
    (ch ar : Option Str) (pg : Nat) (t : Str) (hne : t ≠ [])
    (hch : List.Chain' noNN t) (hlast : isPyWs (t.getLastD 'a') = false) :
    ∀ c ∈ createChunksFromBlock maxC minC ov dId dN ch ar pg [] t,
      c.text ≠ [] := by
  intro c hc
  rw [createChunksFromBlock] at hc
  by_cases hlen : t.length ≤ maxC
  · rw [if_pos hlen, if_neg (by simp), List.nil_append,
      List.mem_singleton] at hc
    subst hc
    exact hne
  · rw [if_neg hlen] at hc
    refine fold_sub_texts minC dId dN ch ar pg _ _ []
      (fun d hd => absurd hd (List.not_mem_nil d)) ?_ c hc
    intro p hp
    exact recursiveSplit_texts maxC ov t hne hch hlast p.2
      (by rw [← List.enum_map_snd (recursiveSplit maxC ov t)]
          exact List.mem_map_of_mem Prod.snd hp)

-- Phase 7: block flushes and the line-scanning loop
lemma flush_good (maxC minC ov : Nat) (dId dN : Str) (ch ar : Option Str)
    (block : List Str) (hb : block ≠ []) (hg : ∀ u ∈ block, goodUnit u) :
    (∀ c ∈ createChunksFromBlock maxC minC ov dId dN ch ar 1 []
        (joinSep ['\n'] block), c.text ≠ []) ∧
    cnwSum block ≤ chunkCnw (createChunksFromBlock maxC minC ov dId dN ch ar 1
        [] (joinSep ['\n'] block)) := by
  have helems : ∀ u ∈ block, u ≠ [] := fun u hu => (hg u hu).1
  have hne : joinSep ['\n'] block ≠ [] := joinSep_ne_nil ['\n'] block hb helems
  have hch : List.Chain' noNN (joinSep ['\n'] block) :=
    joinSep_chain_nn block (fun u hu => ⟨(hg u hu).1, (hg u hu).2.1⟩)
  have hlast : isPyWs ((joinSep ['\n'] block).getLastD 'a') = false := by
    rw [joinSep_getLastD ['\n'] block hb helems 'a']
    have hmem := getLastD_mem block hb []
    have := (hg _ hmem).2.2
    have hne2 := (hg _ hmem).1
    exact this
  refine ⟨createChunks_texts maxC minC ov dId dN ch ar 1 _ hne hch hlast, ?_⟩
  refine le_trans (cnwSum_le_cnw_joinSep ['\n'] block) ?_
  exact createChunks_cnw maxC minC ov dId dN ch ar 1 _ hch

lemma splitLines_master (maxC minC ov : Nat) (dId dN : Str) :
    ∀ (lines : List Str) (chunks : List Chunk) (ch ar : Option Str)
      (block : List Str),
    (∀ line ∈ lines, '\n' ∉ line) →
    (∀ u ∈ block, goodUnit u) →
    (∀ c ∈ chunks, c.text ≠ []) →
    (∀ c ∈ splitLines maxC minC ov dId dN lines chunks ch ar block,
      c.text ≠ []) ∧
    chunkCnw chunks + cnwSum block + cnwSum lines ≤
      chunkCnw (splitLines maxC minC ov dId dN lines chunks ch ar block) := by
  intro lines
  induction lines with
  | nil =>
    intro chunks ch ar block hlines hblock hchunks
    rw [splitLines]
    by_cases hb : block ≠ []
    · rw [if_pos hb]
      have hf := flush_good maxC minC ov dId dN ch ar block hb hblock
      constructor
      · intro c hc
        rcases List.mem_append.mp hc with hc | hc
        · exact hchunks c hc
        · exact hf.1 c hc
      · rw [chunkCnw_append]
        rw [show cnwSum ([] : List Str) = 0 from rfl]
        have := hf.2
        omega
    · rw [if_neg hb]
      rw [not_not] at hb
      subst hb
      refine ⟨hchunks, ?_⟩
      rw [show cnwSum ([] : List Str) = 0 from rfl]
      omega
  | cons line rest ih =>
    intro chunks ch ar block hlines hblock hchunks
    rw [splitLines]
    have hcnwline : countNonWs (pyStrip line) = countNonWs line :=
      cnw_pyStrip line
    have hrest : ∀ l2 ∈ rest, '\n' ∉ l2 :=
      fun l2 h2 => hlines l2 (List.mem_cons_of_mem line h2)
    have hsum : cnwSum (line :: rest) = countNonWs line + cnwSum rest := by
      simp only [cnwSum, List.map_cons, List.sum_cons]
    by_cases hl : pyStrip line = []
    · rw [hl]
      rw [if_pos rfl]
      have := ih chunks ch ar block hrest hblock hchunks
      refine ⟨this.1, ?_⟩
      rw [hsum, ← hcnwline, hl]
      rw [show countNonWs ([] : Str) = 0 from rfl]
      omega
    · rw [if_neg hl]
      have hgood : goodUnit (pyStrip line) :=
        goodUnit_pyStrip line (hlines line (by simp)) hl
      cases hcm : chapterMatch (pyStrip line) with
      | some g =>
        by_cases hb : block ≠ []
        · rw [if_pos hb]
          have hf := flush_good maxC minC ov dId dN ch ar block hb hblock
          have hih := ih (chunks ++ createChunksFromBlock maxC minC ov dId dN
            ch ar 1 [] (joinSep ['\n'] block)) (some (headerValue g)) ar
            [pyStrip line] hrest
            (by intro u hu
                rw [List.mem_singleton] at hu
                subst hu
                exact hgood)
            (by intro c hc
                rcases List.mem_append.mp hc with hc | hc
                · exact hchunks c hc
                · exact hf.1 c hc)
          refine ⟨hih.1, ?_⟩
          refine le_trans ?_ hih.2
          rw [chunkCnw_append, hsum]
          rw [show cnwSum [pyStrip line] = countNonWs (pyStrip line) by
            simp [cnwSum]]
          have := hf.2
          omega
        · rw [if_neg hb]
          rw [not_not] at hb
          subst hb
          have hih := ih chunks (some (headerValue g)) ar [pyStrip line] hrest
            (by intro u hu
                rw [List.mem_singleton] at hu
                subst hu
                exact hgood)
            hchunks
          refine ⟨hih.1, ?_⟩
          refine le_trans ?_ hih.2
          rw [hsum]
          rw [show cnwSum [pyStrip line] = countNonWs (pyStrip line) by
            simp [cnwSum]]
          rw [show cnwSum ([] : List Str) = 0 from rfl]
          omega
      | none =>
        cases ham : articleMatch (pyStrip line) with
        | some g =>
          by_cases hb : block ≠ []
          · rw [if_pos hb]
            have hf := flush_good maxC minC ov dId dN ch ar block hb hblock
            have hih := ih (chunks ++ createChunksFromBlock maxC minC ov dId
              dN ch ar 1 [] (joinSep ['\n'] block)) ch
              (some (headerValue g)) [pyStrip line] hrest
              (by intro u hu
                  rw [List.mem_singleton] at hu
                  subst hu
                  exact hgood)
              (by intro c hc
                  rcases List.mem_append.mp hc with hc | hc
                  · exact hchunks c hc
                  · exact hf.1 c hc)
            refine ⟨hih.1, ?_⟩
            refine le_trans ?_ hih.2
            rw [chunkCnw_append, hsum]
            rw [show cnwSum [pyStrip line] = countNonWs (pyStrip line) by
              simp [cnwSum]]
            have := hf.2
            omega
          · rw [if_neg hb]
            rw [not_not] at hb
            subst hb
            have hih := ih chunks ch (some (headerValue g)) [pyStrip line]
              hrest
              (by intro u hu
                  rw [List.mem_singleton] at hu
                  subst hu
                  exact hgood)
              hchunks
            refine ⟨hih.1, ?_⟩
            refine le_trans ?_ hih.2
            rw [hsum]
            rw [show cnwSum [pyStrip line] = countNonWs (pyStrip line) by
              simp [cnwSum]]
            rw [show cnwSum ([] : List Str) = 0 from rfl]
            omega
        | none =>
          have hih := ih chunks ch ar (block ++ [pyStrip line]) hrest
            (by intro u hu
                rcases List.mem_append.mp hu with hu | hu
                · exact hblock u hu
                · rw [List.mem_singleton] at hu
                  subst hu
                  exact hgood)
            hchunks
          refine ⟨hih.1, ?_⟩
          refine le_trans ?_ hih.2
          rw [hsum]
          rw [show cnwSum (block ++ [pyStrip line]) =
            cnwSum block + countNonWs (pyStrip line) by
              simp [cnwSum]]
          omega

-- Phase 8: final assembly for `StructuralSplitter.split`
lemma chunkCnw_le_textLenSum (cs : List Chunk) : chunkCnw cs ≤ textLenSum cs := by
  rw [chunkCnw, textLenSum]
  exact List.sum_le_sum (fun c _ => cnw_le_length c.text)

lemma mapIdx_text_pres (f : Nat → Chunk → Chunk)
    (hf : ∀ i c, (f i c).text = c.text) (cs : List Chunk) :
    (cs.mapIdx f).map (fun c => c.text) = cs.map (fun c => c.text) := by
  rw [List.mapIdx_eq_enum_map, List.map_map]
  rw [show ((fun c => c.text) ∘ Function.uncurry f) =
    (fun p : Nat × Chunk => p.2.text) by
      funext p
      exact hf p.1 p.2]
  rw [show (fun p : Nat × Chunk => p.2.text) =
    ((fun c : Chunk => c.text) ∘ Prod.snd) from rfl]
  rw [← List.map_map, List.enum_map_snd]

lemma chunkCnw_as_texts (cs : List Chunk) :
    chunkCnw cs = ((cs.map (fun c => c.text)).map countNonWs).sum := by
  rw [chunkCnw, List.map_map]
  rfl

lemma textLenSum_as_texts (cs : List Chunk) :
    textLenSum cs = ((cs.map (fun c => c.text)).map List.length).sum := by
  rw [textLenSum, List.map_map]
  rfl

/-- C1: `StructuralSplitter.split` loses no content: an input with at least
one non-whitespace character yields a non-empty chunk list whose texts are
all non-empty and whose total text length is at least the number of
non-whitespace characters of the input (the input length minus the
whitespace removed by line stripping and separator rewriting); an empty or
whitespace-only input yields the empty list. -/
theorem C1_no_loss_chunking (maxChars minChars overlap : Nat)
    (text documentId documentName : Str) :
    (countNonWs text = 0 →
      structuralSplit maxChars minChars overlap text documentId
        documentName = []) ∧
    (countNonWs text ≠ 0 →
      structuralSplit maxChars minChars overlap text documentId
        documentName ≠ [] ∧
      (∀ c ∈ structuralSplit maxChars minChars overlap text documentId
        documentName, c.text ≠ []) ∧
      countNonWs text ≤ textLenSum (structuralSplit maxChars minChars overlap
        text documentId documentName)) := by
  constructor
  · intro h
    rw [structuralSplit, if_pos ((cnw_eq_zero_iff text).mp h)]
  · intro h
    have hstrip : pyStrip text ≠ [] := fun hs =>
      h ((cnw_eq_zero_iff text).mpr hs)
    rw [structuralSplit, if_neg hstrip]
    have hmaster := splitLines_master maxChars minChars overlap documentId
      documentName (splitOnChar '\n' text) [] none none []
      (splitOnChar_not_mem '\n' text)
      (fun u hu => absurd hu (List.not_mem_nil u))
      (fun c hc => absurd hc (List.not_mem_nil c))
    rw [cnwSum_splitOnChar '\n' (by decide) text] at hmaster
    rw [show chunkCnw ([] : List Chunk) = 0 from rfl] at hmaster
    rw [show cnwSum ([] : List Str) = 0 from rfl] at hmaster
    set core := splitLines maxChars minChars overlap documentId documentName
      (splitOnChar '\n' text) [] none none [] with hcore
    have hcnw : countNonWs text ≤ chunkCnw core := by
      have := hmaster.2
      omega
    have htp := mapIdx_text_pres (fun i c =>
      { c with
        id := generateChunkId documentId i
        chapter := truncMeta c.chapter
        article := truncMeta c.article }) (fun _ _ => rfl) core
    refine ⟨?_, ?_, ?_⟩
    · intro hnil
      rw [List.mapIdx_eq_nil_iff] at hnil
      rw [hnil] at hcnw
      rw [show chunkCnw ([] : List Chunk) = 0 from rfl] at hcnw
      omega
    · intro c hc
      have hmm := List.mem_map_of_mem (fun c : Chunk => c.text) hc
      rw [htp] at hmm
      obtain ⟨d, hd, hdt⟩ := List.mem_map.mp hmm
      have hdt2 : d.text = c.text := hdt
      rw [← hdt2]
      exact hmaster.1 d hd
    · rw [textLenSum_as_texts, htp, ← textLenSum_as_texts]
      refine le_trans hcnw (chunkCnw_le_textLenSum core)

/-- C1 witness: the theorem applied to a one-article document. -/
theorem C1_no_loss_chunking_witness :
    structuralSplit 2000 100 200 "Điều 1. A.".toList "doc".toList
      "doc".toList ≠ [] ∧
    (∀ c ∈ structuralSplit 2000 100 200 "Điều 1. A.".toList "doc".toList
      "doc".toList, c.text ≠ []) ∧
    countNonWs "Điều 1. A.".toList ≤ textLenSum (structuralSplit 2000 100 200
      "Điều 1. A.".toList "doc".toList "doc".toList) :=
  (C1_no_loss_chunking 2000 100 200 "Điều 1. A.".toList "doc".toList
    "doc".toList).2 (by decide)

end RagQC
